import Mathlib

/-!
Verification of the kiri repository: the frame codec (`kiri-protocol`,
`src/protocol/src/lib.rs`) and the CSMA access strategy (`kiri-csma`,
`src/csma/src/lib.rs`).

Bytes are modelled as `Nat` values, with `< 256` bounds carried as hypotheses
where they matter.  Fallible operations return `Option`/`Except`.  The external
crates used by the codec (`cobs`, `crc` with `CRC_16_IBM_SDLC`, `packed_struct`)
are not part of the repository; their behaviour is modelled from the spec's
bit-exact wire-format description (COBS byte stuffing, CRC-16/X.25,
MSB-first header packing).
-/

namespace Kiri

/-- `COBS_MARKER` from src/protocol/src/lib.rs. -/
def COBS_MARKER : Nat := 0

/-- `MAGIC_WORD = b"kI"` from src/protocol/src/lib.rs. -/
def MAGIC_WORD : List Nat := [0x6B, 0x49]

/-- `CHECKSUM_LEN` from src/protocol/src/lib.rs. -/
def CHECKSUM_LEN : Nat := 2

/-- `MAGIC_LEN` from src/protocol/src/lib.rs. -/
def MAGIC_LEN : Nat := 2

/-- `HEADER_LEN` from src/protocol/src/lib.rs. -/
def HEADER_LEN : Nat := 4

/-- `MAX_MESSAGE_LEN` from src/protocol/src/lib.rs. -/
def MAX_MESSAGE_LEN : Nat := 1006

/-- `MAX_NAKED_LEN` from src/protocol/src/lib.rs. -/
def MAX_NAKED_LEN : Nat := MAGIC_LEN + HEADER_LEN + MAX_MESSAGE_LEN + CHECKSUM_LEN

/-- `MIN_NAKED_LEN` from src/protocol/src/lib.rs. -/
def MIN_NAKED_LEN : Nat := MAGIC_LEN + HEADER_LEN + CHECKSUM_LEN

/-- `cobs_max_encoding_length` from src/protocol/src/lib.rs. -/
def cobs_max_encoding_length (source_len : Nat) : Nat :=
  source_len + source_len / 254 + if source_len % 254 > 0 then 1 else 0

/-- `MAX_FRAME_LEN` from src/protocol/src/lib.rs (equals 1019). -/
def MAX_FRAME_LEN : Nat := cobs_max_encoding_length MAX_NAKED_LEN + 1

/-!
## CRC-16/IBM-SDLC

Modelled from the spec: the `crc` crate's `CRC_16_IBM_SDLC` used by the codec
is CRC-16/X.25: polynomial 0x1021, init 0xFFFF, input and output reflected,
xor-out 0xFFFF.  The reflected byte-at-a-time algorithm xors the byte into the
low bits of the state and performs eight LSB-first shift steps with the
reversed polynomial 0x8408.
-/

/-- One LSB-first shift step of the reflected CRC-16/X.25 register. -/
def crcShift (c : Nat) : Nat :=
  c / 2 ^^^ (if c % 2 = 1 then 0x8408 else 0)

/-- Update the CRC register with one input byte (xor in, then 8 shift steps). -/
def crcByte (c b : Nat) : Nat :=
  crcShift (crcShift (crcShift (crcShift (crcShift (crcShift (crcShift (crcShift (c ^^^ b))))))))

/-- Update the CRC register with a sequence of bytes (`Digest::update`). -/
def crcUpdate (c : Nat) (l : List Nat) : Nat := l.foldl crcByte c

/-- `CHECKSUM.checksum`: full CRC-16/X.25 of a byte sequence. -/
def crc16 (l : List Nat) : Nat := crcUpdate 0xFFFF l ^^^ 0xFFFF

/-- `u16::to_be_bytes` of a checksum value. -/
def crcBeBytes (c : Nat) : List Nat := [c / 256 % 256, c % 256]

/-!
## Address and Header

`Address` wraps a 10-bit integer.  `convert_primitive` masks the value to the
bit width (`from_primitive`) and fails when masking changed it.  `Header` is
the `packed_struct` MSB-first layout: bits 0..10 source, 10..20 destination,
20..30 length, 30..32 reserved.
-/

/-- `Address` from src/protocol/src/lib.rs: a 10-bit address. -/
structure Address where
  inner : Nat
deriving DecidableEq, Repr

/-- `convert_primitive` from src/protocol/src/lib.rs for a 10-bit target:
masks the value to 10 bits and checks that nothing was lost. -/
def convertPrimitive10 (a : Nat) : Option Nat :=
  if a % 1024 = a then some (a % 1024) else none

/-- `Address::new` from src/protocol/src/lib.rs: `none` models `AddressTooLargeError`. -/
def Address.new (a : Nat) : Option Address :=
  (convertPrimitive10 a).map Address.mk

/-- `Address::to_primitive` from src/protocol/src/lib.rs. -/
def Address.to_primitive (a : Address) : Nat := a.inner

/-- `ADDRESS_UNICAST` from src/protocol/src/lib.rs. -/
def ADDRESS_UNICAST : Nat := 0x3FF

/-- `Header` from src/protocol/src/lib.rs. -/
structure Header where
  address_src : Address
  address_dst : Address
  len : Nat
  reserved : Nat
deriving DecidableEq, Repr

/-- `Header::pack` (modelled from the spec's `packed_struct` MSB-first layout):
src in bits 0..10, dst in bits 10..20, len in bits 20..30, reserved in
bits 30..32, serialized as four big-endian bytes.  Field values are masked to
their bit widths as `packed_struct` integers are. -/
def Header.pack (h : Header) : List Nat :=
  let w := h.address_src.inner % 1024 * 4194304 + h.address_dst.inner % 1024 * 4096 +
    h.len % 1024 * 4 + h.reserved % 4
  [w / 16777216 % 256, w / 65536 % 256, w / 256 % 256, w % 256]

/-- `Header::unpack` (modelled from the spec's `packed_struct` MSB-first
layout); unpacking of plain integer fields cannot fail.  The reader only ever
passes exactly `HEADER_LEN` bytes. -/
def Header.unpack (bs : List Nat) : Header :=
  match bs with
  | b0 :: b1 :: b2 :: b3 :: _ =>
    let w := b0 * 16777216 + b1 * 65536 + b2 * 256 + b3
    ⟨⟨w / 4194304 % 1024⟩, ⟨w / 4096 % 1024⟩, w / 4 % 1024, w % 4⟩
  | _ => ⟨⟨0⟩, ⟨0⟩, 0, 0⟩

theorem Header.unpack_pack (s d l r : Nat) (hs : s < 1024) (hd : d < 1024)
    (hl : l < 1024) (hr : r < 4) :
    Header.unpack (Header.pack ⟨⟨s⟩, ⟨d⟩, l, r⟩) = ⟨⟨s⟩, ⟨d⟩, l, r⟩ := by
  simp only [Header.pack, Header.unpack, Header.mk.injEq, Address.mk.injEq]
  refine ⟨?_, ?_, ?_, ?_⟩ <;> omega

/-!
## COBS

Modelled from the spec: the `cobs` crate's encoder (`CobsEncoder::push` /
`finalize`) and `cobs::decode_in_place`.  The encoder splits the input into
blocks at zero bytes (consumed) and after 254 consecutive non-zero bytes
(nothing consumed), emitting each block as a length code followed by its
non-zero bytes.  The decoder reads a code byte, copies `code - 1` bytes
verbatim, and re-inserts a zero after every block whose code is below 0xFF
unless the input is exhausted.  Both are written with a structural fuel
parameter (any fuel above the input length yields the function's value).
-/

/-- COBS encoder loop; `fuel` strictly exceeding `xs.length` is enough. -/
def cobsEncodeGo : List Nat → Nat → List Nat
  | _, 0 => []
  | xs, fuel + 1 =>
    let block := (xs.takeWhile (fun b => b != 0)).take 254
    if 254 ≤ block.length then
      255 :: (block ++ cobsEncodeGo (xs.drop 254) fuel)
    else
      match xs.drop block.length with
      | [] => (block.length + 1) :: block
      | _ :: rest => (block.length + 1) :: (block ++ cobsEncodeGo rest fuel)

/-- COBS encoding of a byte sequence (no terminating sentinel included). -/
def cobsEncode (xs : List Nat) : List Nat := cobsEncodeGo xs (xs.length + 1)

/-- `cobs::decode_in_place` loop; `fuel` strictly exceeding `xs.length` is enough. -/
def cobsDecodeGo : List Nat → Nat → Option (List Nat)
  | _, 0 => none
  | [], _ + 1 => some []
  | code :: rest, fuel + 1 =>
    if rest.length + 1 < code then none
    else
      (cobsDecodeGo (rest.drop (code - 1)) fuel).map
        (fun d => rest.take (code - 1) ++
          if code ≠ 255 ∧ rest.drop (code - 1) ≠ [] then 0 :: d else d)

/-- `cobs::decode_in_place` on a byte sequence; `none` models `Err(())`. -/
def cobsDecode (xs : List Nat) : Option (List Nat) := cobsDecodeGo xs (xs.length + 1)

/-- The pairs (encoded index, source index) of the bytes that the COBS
encoder copies verbatim into its output (everything except the block length
codes), mirroring the block structure of `cobsEncodeGo`. -/
def cobsDataPairsGo : List Nat → Nat → List (Nat × Nat)
  | _, 0 => []
  | xs, fuel + 1 =>
    let block := (xs.takeWhile (fun b => b != 0)).take 254
    if 254 ≤ block.length then
      (List.range 254).map (fun k => (k + 1, k)) ++
        (cobsDataPairsGo (xs.drop 254) fuel).map (fun p => (p.1 + 255, p.2 + 254))
    else
      match xs.drop block.length with
      | [] => (List.range block.length).map (fun k => (k + 1, k))
      | _ :: rest =>
        (List.range block.length).map (fun k => (k + 1, k)) ++
          (cobsDataPairsGo rest fuel).map
            (fun p => (p.1 + (block.length + 1), p.2 + (block.length + 1)))

/-- Verbatim (non-code) byte positions of `cobsEncode xs`, paired with the
source positions they copy. -/
def cobsDataPairs (xs : List Nat) : List (Nat × Nat) := cobsDataPairsGo xs (xs.length + 1)

/-!
## Reader
-/

/-- `ReadResult` from src/protocol/src/lib.rs.  `FrameOK` carries the decoded
header and the borrowed contents. -/
inductive ReadResult where
  | NotYet
  | Overflow
  | FrameErrorCobs
  | FrameErrorMagic
  | FrameErrorHeader
  | FrameErrorSize
  | FrameErrorChecksum
  | FrameOK (header : Header) (contents : List Nat)
deriving DecidableEq, Repr

/-- `ReadResult::is_error` from src/protocol/src/lib.rs. -/
def ReadResult.is_error : ReadResult → Bool
  | .NotYet => false
  | .FrameOK _ _ => false
  | .Overflow => true
  | .FrameErrorCobs => true
  | .FrameErrorMagic => true
  | .FrameErrorHeader => true
  | .FrameErrorSize => true
  | .FrameErrorChecksum => true

/-- `Reader` from src/protocol/src/lib.rs.  The Rust reader is a fixed
`MAX_FRAME_LEN` array plus a cursor `ptr`; only `buf[0..ptr]` is ever read, so
the model keeps exactly that prefix and the cursor is `buf.length`. -/
structure Reader where
  buf : List Nat
deriving DecidableEq, Repr

/-- `Reader::new` from src/protocol/src/lib.rs. -/
def Reader.new : Reader := ⟨[]⟩

/-- `Reader::clear` from src/protocol/src/lib.rs: resets the cursor. -/
def Reader.clear (_ : Reader) : Reader := ⟨[]⟩

/-- The sentinel branch of `Reader::feed` (src/protocol/src/lib.rs lines
198-241): COBS-decode the buffered bytes, check minimum size, checksum, magic
word (a mismatch yields `FrameErrorHeader`), unpack the header and compare the
content length against the header's length field. -/
def processFrame (data : List Nat) : ReadResult :=
  match cobsDecode data with
  | none => .FrameErrorCobs
  | some buf =>
    if buf.length < MIN_NAKED_LEN then .FrameErrorSize
    else
      let msg := buf.take (buf.length - CHECKSUM_LEN)
      let checksumAtEnd := buf.getD (buf.length - 2) 0 * 256 + buf.getD (buf.length - 1) 0
      if checksumAtEnd ≠ crc16 msg then .FrameErrorChecksum
      else
        let magicBuf := msg.take MAGIC_LEN
        let rest := msg.drop MAGIC_LEN
        let headerBuf := rest.take HEADER_LEN
        let contentBuf := rest.drop HEADER_LEN
        if magicBuf ≠ MAGIC_WORD then .FrameErrorHeader
        else
          let header := Header.unpack headerBuf
          if contentBuf.length ≠ header.len then .FrameErrorSize
          else .FrameOK header contentBuf

/-- `Reader::feed` from src/protocol/src/lib.rs: on a full buffer return
`Overflow` leaving the state untouched; on the sentinel clear the cursor
unconditionally and process the buffered bytes; otherwise store the byte. -/
def Reader.feed (r : Reader) (byte : Nat) : Reader × ReadResult :=
  if MAX_FRAME_LEN ≤ r.buf.length then (r, .Overflow)
  else if byte = COBS_MARKER then (⟨[]⟩, processFrame r.buf)
  else (⟨r.buf ++ [byte]⟩, .NotYet)

/-- Feed a byte sequence one byte at a time, collecting every result. -/
def feedMany (r : Reader) (l : List Nat) : Reader × List ReadResult :=
  match l with
  | [] => (r, [])
  | b :: rest =>
    let step := r.feed b
    let next := feedMany step.1 rest
    (next.1, step.2 :: next.2)

/-!
## Writer
-/

/-- `WriteError` from src/protocol/src/lib.rs. -/
inductive WriteError where
  | TooLong
  | FrameErrorHeader
deriving DecidableEq, Repr

/-- The un-stuffed contents of a frame: magic word, packed header, payload and
big-endian CRC over magic ++ header ++ payload. -/
def nakedFrame (src dst : Address) (contents : List Nat) : List Nat :=
  let headerBuf := Header.pack ⟨src, dst, contents.length, 0⟩
  let msg := MAGIC_WORD ++ headerBuf ++ contents
  msg ++ crcBeBytes (crc16 msg)

/-- `Writer::package` from src/protocol/src/lib.rs.  The length is converted
through `u16`/10-bit `convert_primitive` (`TooLong` on failure).  The streaming
`CobsEncoder` pushes of magic, header, payload and CRC are modelled as one
encoding of their concatenation; every push/finalize failure returns `TooLong`
and occurs exactly when the encoding plus sentinel does not fit the
`MAX_FRAME_LEN` buffer.  `header.pack()` cannot fail for these field types, so
the `FrameErrorHeader` branch is unreachable. -/
def Writer.package (src dst : Address) (contents : List Nat) :
    Except WriteError (List Nat) :=
  match convertPrimitive10 contents.length with
  | none => .error .TooLong
  | some _ =>
    let encoded := cobsEncode (nakedFrame src dst contents)
    if encoded.length < MAX_FRAME_LEN then .ok (encoded ++ [COBS_MARKER])
    else .error .TooLong

/-!
## CSMA strategy (src/csma/src/lib.rs)

The strategy owns the reader, the state machine state and the statistics.
The transceiver, clock and RNG are external capabilities; each call's
interactions with them are modelled as oracle inputs (`CsmaEnv`):
the outcome of `read()`, the value of `bus_is_idle()`, `clock.now()`, the
sampled uniform idle duration and the outcome of `write()`.
`handle_interrupts()` has no modelled effect.  Instants and durations are
`Nat`; the underlying transceiver error type is `Nat`.
-/

/-- Outcome of `Transceiver::read`: a byte, `WouldBlock`, a hardware
`ReadError::FrameError`, or `ReadError::UnderlyingError`. -/
inductive ReadOutcome where
  | byte (b : Nat)
  | wouldBlock
  | frameError
  | underlying (e : Nat)
deriving DecidableEq, Repr

/-- Outcome of `Transceiver::write`. -/
inductive WriteOutcome where
  | ok
  | wouldBlock
  | otherErr (e : Nat)
deriving DecidableEq, Repr

/-- `nb::Error<T::Error>`. -/
inductive NbError where
  | wouldBlock
  | other (e : Nat)
deriving DecidableEq, Repr

/-- `CsmaStrategyState` from src/csma/src/lib.rs. -/
inductive CsmaStrategyState where
  | WaitForBusIdle
  | BusIdleCooldown (ready_at : Nat)
  | StartSend
  | Sending
  | ConfirmingSendWithoutErrors
deriving DecidableEq, Repr

/-- `Stats` from src/csma/src/lib.rs. -/
structure Stats where
  frame_errors : Nat
deriving DecidableEq, Repr

/-- The owned mutable state of `CsmaStrategy` from src/csma/src/lib.rs. -/
structure CsmaStrategy where
  reader : Reader
  state : CsmaStrategyState
  stats : Stats
deriving DecidableEq, Repr

/-- `CsmaStrategy::new`. -/
def CsmaStrategy.new : CsmaStrategy := ⟨Reader.new, .WaitForBusIdle, ⟨0⟩⟩

/-- `CsmaFrameInProgress` from src/csma/src/lib.rs. -/
structure CsmaFrameInProgress where
  frame : List Nat
  send_ptr : Nat
  receive_ptr : Nat
deriving DecidableEq, Repr

/-- `CsmaFrameInProgress::new`. -/
def CsmaFrameInProgress.new (frame : List Nat) : CsmaFrameInProgress := ⟨frame, 0, 0⟩

/-- `CsmaFrameInProgress::reset`. -/
def CsmaFrameInProgress.reset (f : CsmaFrameInProgress) : CsmaFrameInProgress :=
  ⟨f.frame, 0, 0⟩

/-- `CsmaFrameInProgress::peek_for_send` (no mutation). -/
def CsmaFrameInProgress.peek_for_send (f : CsmaFrameInProgress) : Option Nat :=
  f.frame.get? f.send_ptr

/-- `CsmaFrameInProgress::notify_send`. -/
def CsmaFrameInProgress.notify_send (f : CsmaFrameInProgress) : CsmaFrameInProgress :=
  ⟨f.frame, f.send_ptr + 1, f.receive_ptr⟩

/-- `CsmaFrameInProgress::feed_as_check`: on a match advance `receive_ptr`
and report whether the whole frame has come back; otherwise `Err(())`. -/
def CsmaFrameInProgress.feed_as_check (f : CsmaFrameInProgress) (b : Nat) :
    CsmaFrameInProgress × Except Unit Bool :=
  match f.frame.get? f.receive_ptr with
  | some c =>
    if c = b then
      (⟨f.frame, f.send_ptr, f.receive_ptr + 1⟩, .ok (f.receive_ptr + 1 == f.frame.length))
    else (f, .error ())
  | none => (f, .error ())

/-- Oracle inputs for one `send_or_receive` / `handle_send` call. -/
structure CsmaEnv where
  read : ReadOutcome
  bus_is_idle : Bool
  now : Nat
  idle_duration : Nat
  write : WriteOutcome
deriving DecidableEq, Repr

/-- `FrameOwned` from src/protocol/src/lib.rs. -/
structure FrameOwned where
  header : Header
  contents : List Nat
deriving DecidableEq, Repr

/-- `SendReceiveResult` from src/csma/src/lib.rs. -/
inductive SendReceiveResult where
  | SendComplete
  | Received (frame : FrameOwned)
deriving DecidableEq, Repr

/-- `nb::Result<SendReceiveResult, T::Error>`. -/
inductive SorResult where
  | ok (r : SendReceiveResult)
  | err (e : NbError)
deriving DecidableEq, Repr

/-- `CsmaStrategy::handle_send` from src/csma/src/lib.rs (lines 232-280). -/
def CsmaStrategy.handle_send (s : CsmaStrategy) (f : CsmaFrameInProgress) (env : CsmaEnv) :
    CsmaStrategy × CsmaFrameInProgress × NbError :=
  match s.state with
  | .WaitForBusIdle =>
    if env.bus_is_idle then
      ({ s with state := .BusIdleCooldown (env.now + env.idle_duration) }, f, .wouldBlock)
    else (s, f, .wouldBlock)
  | .BusIdleCooldown ready_at =>
    if !env.bus_is_idle then ({ s with state := .WaitForBusIdle }, f, .wouldBlock)
    else if ready_at ≤ env.now then ({ s with state := .StartSend }, f, .wouldBlock)
    else (s, f, .wouldBlock)
  | .StartSend =>
    if !env.bus_is_idle then ({ s with state := .WaitForBusIdle }, f, .wouldBlock)
    else ({ s with reader := s.reader.clear, state := .Sending }, f, .wouldBlock)
  | .Sending =>
    match f.peek_for_send with
    | none => ({ s with state := .ConfirmingSendWithoutErrors }, f, .wouldBlock)
    | some _ =>
      match env.write with
      | .wouldBlock => (s, f, .wouldBlock)
      | .otherErr e => (s, f, .other e)
      | .ok =>
        let f' := f.notify_send
        match f'.peek_for_send with
        | none => ({ s with state := .ConfirmingSendWithoutErrors }, f', .wouldBlock)
        | some _ => (s, f', .wouldBlock)
  | .ConfirmingSendWithoutErrors => (s, f, .wouldBlock)

/-- `CsmaStrategy::send_or_receive` from src/csma/src/lib.rs (lines 285-365).
A received byte is first checked against the own frame (in `Sending` /
`ConfirmingSendWithoutErrors`) or fed to the reader (any other state, after
forcing the state to `WaitForBusIdle`); a loopback mismatch or a hardware
frame error counts a frame error, resets the frame in progress, clears the
reader (feeding it the offending byte in the mismatch case) and moves to
`WaitForBusIdle`; otherwise control falls through to `handle_send`. -/
def CsmaStrategy.send_or_receive (s : CsmaStrategy) (f : CsmaFrameInProgress)
    (env : CsmaEnv) : CsmaStrategy × CsmaFrameInProgress × SorResult :=
  match env.read with
  | .byte b =>
    match s.state with
    | .Sending | .ConfirmingSendWithoutErrors =>
      match f.feed_as_check b with
      | (f', .ok true) =>
        ({ s with state := .WaitForBusIdle }, f', .ok .SendComplete)
      | (f', .ok false) =>
        let r := CsmaStrategy.handle_send s f' env
        (r.1, r.2.1, .err r.2.2)
      | (_, .error _) =>
        let s1 : CsmaStrategy :=
          { reader := ((Reader.clear s.reader).feed b).1,
            state := .WaitForBusIdle,
            stats := ⟨s.stats.frame_errors + 1⟩ }
        (s1, f.reset, .err .wouldBlock)
    | _ =>
      match (s.reader.feed b) with
      | (r', .FrameOK h c) =>
        ({ s with reader := r', state := .WaitForBusIdle }, f, .ok (.Received ⟨h, c⟩))
      | (r', _) =>
        let r := CsmaStrategy.handle_send
          { s with reader := r', state := .WaitForBusIdle } f env
        (r.1, r.2.1, .err r.2.2)
  | .wouldBlock =>
    let r := CsmaStrategy.handle_send s f env
    (r.1, r.2.1, .err r.2.2)
  | .frameError =>
    ({ reader := Reader.clear s.reader, state := .WaitForBusIdle,
       stats := ⟨s.stats.frame_errors + 1⟩ }, f.reset, .err .wouldBlock)
  | .underlying e => (s, f, .err (.other e))

/-- `CsmaStrategy::receive` from src/csma/src/lib.rs (lines 367-389). -/
def CsmaStrategy.receive (s : CsmaStrategy) (ro : ReadOutcome) :
    CsmaStrategy × Except NbError FrameOwned :=
  match ro with
  | .byte b =>
    match s.reader.feed b with
    | (r', .FrameOK h c) => ({ s with reader := r' }, .ok ⟨h, c⟩)
    | (r', _) => ({ s with reader := r' }, .error .wouldBlock)
  | .frameError =>
    ({ s with stats := ⟨s.stats.frame_errors + 1⟩, reader := Reader.clear s.reader },
      .error .wouldBlock)
  | .underlying e => (s, .error (.other e))
  | .wouldBlock => (s, .error .wouldBlock)

/-!
## Lemmas about the COBS codec
-/

theorem length_takeWhile_le' (p : Nat → Bool) (l : List Nat) :
    (l.takeWhile p).length ≤ l.length :=
  (List.takeWhile_prefix p).length_le

theorem dropWhile_head_false {p : Nat → Bool} :
    ∀ {xs : List Nat} {y : Nat} {t : List Nat}, xs.dropWhile p = y :: t → p y = false := by
  intro xs
  induction xs with
  | nil => intro y t h; simp at h
  | cons a r ih =>
    intro y t h
    rw [List.dropWhile_cons] at h
    by_cases hpa : p a = true
    · exact ih (by simpa [hpa] using h)
    · simp only [hpa, if_false] at h
      cases h
      simpa using hpa

theorem cobsEncodeGo_fuel :
    ∀ (f g : Nat) (xs : List Nat), xs.length < f → xs.length < g →
      cobsEncodeGo xs f = cobsEncodeGo xs g := by
  intro f
  induction f with
  | zero => intro g xs h _; omega
  | succ f ih =>
    intro g xs hf hg
    match g with
    | 0 => omega
    | g + 1 =>
      have hbl : ((xs.takeWhile (fun b => b != 0)).take 254).length ≤ xs.length := by
        calc ((xs.takeWhile (fun b => b != 0)).take 254).length
            ≤ (xs.takeWhile (fun b => b != 0)).length := by
              simp [List.length_take]
          _ ≤ xs.length := length_takeWhile_le' _ _
      simp only [cobsEncodeGo]
      split
      · have h254 : 254 ≤ xs.length := le_trans (by assumption) hbl
        have hdl : (xs.drop 254).length = xs.length - 254 := List.length_drop _ _
        rw [ih g (xs.drop 254) (by omega) (by omega)]
      · split
        · rfl
        · rename_i hrest
          have hdl := List.length_drop ((xs.takeWhile (fun b => b != 0)).take 254).length xs
          rw [hrest] at hdl
          simp only [List.length_cons] at hdl
          rename_i y rest
          rw [ih g rest (by omega) (by omega)]

theorem cobsEncodeGo_ne_nil (f : Nat) (xs : List Nat) (h : xs.length < f) :
    cobsEncodeGo xs f ≠ [] := by
  match f with
  | 0 => omega
  | f + 1 =>
    simp only [cobsEncodeGo]
    split
    · simp
    · split <;> simp

theorem cobsEncodeGo_ne_zero :
    ∀ (f : Nat) (xs : List Nat), xs.length < f → ∀ b ∈ cobsEncodeGo xs f, b ≠ 0 := by
  intro f
  induction f with
  | zero => intro xs h; omega
  | succ f ih =>
    intro xs hf b hb
    have hblock : ∀ c ∈ (xs.takeWhile (fun b => b != 0)).take 254, c ≠ 0 := by
      intro c hc
      have := List.mem_takeWhile_imp (List.mem_of_mem_take hc)
      simpa using this
    have hbl : ((xs.takeWhile (fun b => b != 0)).take 254).length ≤ xs.length := by
      calc ((xs.takeWhile (fun b => b != 0)).take 254).length
          ≤ (xs.takeWhile (fun b => b != 0)).length := by simp [List.length_take]
        _ ≤ xs.length := length_takeWhile_le' _ _
    simp only [cobsEncodeGo] at hb
    revert hb
    split
    · intro hb
      rcases List.mem_cons.1 hb with h255 | hb
      · omega
      · rcases List.mem_append.1 hb with hb | hb
        · exact hblock _ hb
        · have h254 : 254 ≤ xs.length := le_trans (by assumption) hbl
          have hdl : (xs.drop 254).length = xs.length - 254 := List.length_drop _ _
          exact ih (xs.drop 254) (by omega) b hb
    · split
      · intro hb
        rcases List.mem_cons.1 hb with hc | hb
        · omega
        · exact hblock _ hb
      · rename_i hrest
        intro hb
        have hdl := List.length_drop ((xs.takeWhile (fun b => b != 0)).take 254).length xs
        rw [hrest] at hdl
        simp only [List.length_cons] at hdl
        rename_i y rest
        rcases List.mem_cons.1 hb with hc | hb
        · omega
        · rcases List.mem_append.1 hb with hb | hb
          · exact hblock _ hb
          · exact ih rest (by omega) b hb

theorem cobsEncodeGo_length_le :
    ∀ (f : Nat) (xs : List Nat), xs.length < f →
      (cobsEncodeGo xs f).length ≤ xs.length + xs.length / 254 + 1 := by
  intro f
  induction f with
  | zero => intro xs h; omega
  | succ f ih =>
    intro xs hf
    have hbl : ((xs.takeWhile (fun b => b != 0)).take 254).length ≤ xs.length := by
      calc ((xs.takeWhile (fun b => b != 0)).take 254).length
          ≤ (xs.takeWhile (fun b => b != 0)).length := by simp [List.length_take]
        _ ≤ xs.length := length_takeWhile_le' _ _
    simp only [cobsEncodeGo]
    split
    · have h254 : 254 ≤ xs.length := le_trans (by assumption) hbl
      have hdl : (xs.drop 254).length = xs.length - 254 := List.length_drop _ _
      have hrec := ih (xs.drop 254) (by omega)
      have hbl' : ((xs.takeWhile (fun b => b != 0)).take 254).length ≤ 254 := by
        simp [List.length_take]
      simp only [List.length_cons, List.length_append]
      omega
    · split
      · simp only [List.length_cons]
        rename_i hrest
        have hdl := List.length_drop ((xs.takeWhile (fun b => b != 0)).take 254).length xs
        rw [hrest] at hdl
        simp only [List.length_nil] at hdl
        omega
      · rename_i hrest
        have hdl := List.length_drop ((xs.takeWhile (fun b => b != 0)).take 254).length xs
        rw [hrest] at hdl
        simp only [List.length_cons] at hdl
        rename_i y rest
        have hrec := ih rest (by omega)
        simp only [List.length_cons, List.length_append]
        omega

theorem cobsEncode_length_le (xs : List Nat) :
    (cobsEncode xs).length ≤ xs.length + xs.length / 254 + 1 :=
  cobsEncodeGo_length_le (xs.length + 1) xs (by omega)

theorem cobsEncode_ne_zero (xs : List Nat) : ∀ b ∈ cobsEncode xs, b ≠ 0 :=
  cobsEncodeGo_ne_zero (xs.length + 1) xs (by omega)

theorem cobsDecodeGo_encodeGo :
    ∀ (f : Nat) (xs : List Nat), xs.length < f →
      ∀ (g : Nat), (cobsEncodeGo xs f).length < g →
        cobsDecodeGo (cobsEncodeGo xs f) g = some xs := by
  intro f
  induction f with
  | zero => intro xs h; omega
  | succ f ih =>
    intro xs hf g hg
    by_cases hB : 254 ≤ ((xs.takeWhile (fun b => b != 0)).take 254).length
    · -- a full block of 254 non-zero bytes
      have hmin := List.length_take 254 (xs.takeWhile (fun b => b != 0))
      have htwle := length_takeWhile_le' (fun b => b != 0) xs
      have htw254 : 254 ≤ (xs.takeWhile (fun b => b != 0)).length := by omega
      have h254xs : 254 ≤ xs.length := by omega
      have hblock : (xs.takeWhile (fun b => b != 0)).take 254 = xs.take 254 := by
        obtain ⟨u, hu⟩ := List.takeWhile_prefix (l := xs) (fun b => b != 0)
        calc (xs.takeWhile (fun b => b != 0)).take 254
            = ((xs.takeWhile (fun b => b != 0)) ++ u).take 254 :=
              (List.take_append_of_le_length htw254).symm
          _ = xs.take 254 := by rw [hu]
      have hE : cobsEncodeGo xs (f + 1) =
          255 :: (xs.take 254 ++ cobsEncodeGo (xs.drop 254) f) := by
        simp only [cobsEncodeGo]
        rw [if_pos hB, hblock]
      rw [hE] at hg ⊢
      have hlen : (xs.take 254).length = 254 := by
        rw [List.length_take]; omega
      obtain ⟨g, rfl⟩ : ∃ g', g = g' + 1 := ⟨g - 1, by omega⟩
      have hrecfuel : (xs.drop 254).length < f := by
        rw [List.length_drop]; omega
      have hreclen : (cobsEncodeGo (xs.drop 254) f).length < g := by
        simp only [List.length_cons, List.length_append, hlen] at hg
        omega
      simp only [cobsDecodeGo]
      rw [if_neg (by simp only [List.length_append, hlen]; omega)]
      have ht := List.take_left (xs.take 254) (cobsEncodeGo (xs.drop 254) f)
      have hd := List.drop_left (xs.take 254) (cobsEncodeGo (xs.drop 254) f)
      rw [hlen] at ht hd
      have h254 : (255 : Nat) - 1 = 254 := rfl
      rw [h254, ht, hd]
      rw [ih (xs.drop 254) hrecfuel g hreclen]
      simp [List.take_append_drop]
    · -- a short block, ending at a zero byte or at the end of the input
      have hmin := List.length_take 254 (xs.takeWhile (fun b => b != 0))
      have htwle := length_takeWhile_le' (fun b => b != 0) xs
      have htwlt : (xs.takeWhile (fun b => b != 0)).length < 254 := by omega
      have hblock_eq : (xs.takeWhile (fun b => b != 0)).take 254 =
          xs.takeWhile (fun b => b != 0) :=
        List.take_of_length_le (by omega)
      have hdw : xs.drop (xs.takeWhile (fun b => b != 0)).length =
          xs.dropWhile (fun b => b != 0) := by
        have h := List.drop_left (xs.takeWhile (fun b => b != 0))
          (xs.dropWhile (fun b => b != 0))
        rw [List.takeWhile_append_dropWhile] at h
        exact h
      have hsplit := List.takeWhile_append_dropWhile (fun b => b != 0) xs
      rcases hrest : xs.dropWhile (fun b => b != 0) with _ | ⟨y, rest⟩
      · -- the input is a single short block
        have hxs : xs.takeWhile (fun b => b != 0) = xs := by
          rw [hrest] at hsplit; simpa using hsplit
        have hE : cobsEncodeGo xs (f + 1) =
            ((xs.takeWhile (fun b => b != 0)).length + 1) ::
              xs.takeWhile (fun b => b != 0) := by
          simp only [cobsEncodeGo]
          rw [if_neg hB, hblock_eq, hdw, hrest]
        rw [hE] at hg ⊢
        obtain ⟨g, rfl⟩ : ∃ g', g = g' + 1 := ⟨g - 1, by omega⟩
        obtain ⟨g, rfl⟩ : ∃ g', g = g' + 1 := by
          refine ⟨g - 1, ?_⟩
          simp only [List.length_cons] at hg
          omega
        simp only [cobsDecodeGo]
        rw [if_neg (by omega)]
        rw [Nat.add_sub_cancel, List.take_length, List.drop_length]
        simp [cobsDecodeGo, hxs]
      · -- the block ends at a zero byte
        have hy : y = 0 := by
          have := dropWhile_head_false hrest
          simpa using this
        have hxs : xs = xs.takeWhile (fun b => b != 0) ++ y :: rest := by
          rw [← hrest]; exact hsplit.symm
        have hxslen : xs.length = (xs.takeWhile (fun b => b != 0)).length + 1 + rest.length := by
          conv_lhs => rw [hxs]
          simp [List.length_append]
          omega
        have hrecfuel : rest.length < f := by omega
        have hE : cobsEncodeGo xs (f + 1) =
            ((xs.takeWhile (fun b => b != 0)).length + 1) ::
              (xs.takeWhile (fun b => b != 0) ++ cobsEncodeGo rest f) := by
          simp only [cobsEncodeGo]
          rw [if_neg hB, hblock_eq, hdw, hrest]
        rw [hE] at hg ⊢
        obtain ⟨g, rfl⟩ : ∃ g', g = g' + 1 := ⟨g - 1, by omega⟩
        have hreclen : (cobsEncodeGo rest f).length < g := by
          simp only [List.length_cons, List.length_append] at hg
          omega
        simp only [cobsDecodeGo]
        rw [if_neg (by simp only [List.length_append]; omega)]
        rw [Nat.add_sub_cancel, List.drop_left, List.take_left]
        rw [ih rest hrecfuel g hreclen]
        have h1 : (xs.takeWhile (fun b => b != 0)).length + 1 ≠ 255 := by omega
        have h2 : cobsEncodeGo rest f ≠ [] := cobsEncodeGo_ne_nil f rest hrecfuel
        rw [hy] at hxs
        simp only [Option.map_some', h1, h2, ne_eq, not_false_eq_true, and_self, if_true,
          Option.some.injEq]
        exact hxs.symm

theorem cobsDecode_cobsEncode (xs : List Nat) : cobsDecode (cobsEncode xs) = some xs := by
  have h := cobsDecodeGo_encodeGo (xs.length + 1) xs (by omega)
    ((cobsEncodeGo xs (xs.length + 1)).length + 1) (by omega)
  simpa [cobsDecode, cobsEncode] using h

/-!
## Lemmas about the reader
-/

theorem MAX_FRAME_LEN_eq : MAX_FRAME_LEN = 1019 := by decide

theorem MIN_NAKED_LEN_eq : MIN_NAKED_LEN = 8 := by decide

theorem feed_of_full (r : Reader) (b : Nat) (h : MAX_FRAME_LEN ≤ r.buf.length) :
    r.feed b = (r, .Overflow) := by
  unfold Reader.feed
  rw [if_pos h]

theorem processFrame_ne_Overflow (d : List Nat) : processFrame d ≠ .Overflow := by
  intro h
  simp only [processFrame] at h
  split at h
  · exact absurd h (by simp)
  · split_ifs at h <;> simp_all

/-- Feeding only non-zero bytes to a reader with enough room appends them all
to the buffer and yields `NotYet` at every step. -/
theorem feedMany_nonzero :
    ∀ (l : List Nat) (r : Reader), (∀ b ∈ l, b ≠ 0) →
      r.buf.length + l.length ≤ MAX_FRAME_LEN →
      feedMany r l = (⟨r.buf ++ l⟩, List.replicate l.length .NotYet) := by
  intro l
  induction l with
  | nil => intro r _ _; simp [feedMany]
  | cons b t ih =>
    intro r h0 hlen
    have hb : b ≠ 0 := h0 b (by simp)
    have hfeed : r.feed b = (⟨r.buf ++ [b]⟩, .NotYet) := by
      unfold Reader.feed
      rw [if_neg (by simp only [List.length_cons] at hlen; omega),
        if_neg (by simpa [COBS_MARKER] using hb)]
    simp only [feedMany, hfeed]
    rw [ih ⟨r.buf ++ [b]⟩ (fun x hx => h0 x (by simp [hx]))
      (by simp only [List.length_append, List.length_cons, List.length_nil] at hlen ⊢; omega)]
    simp [List.replicate_succ]

/-!
## CRC register bounds
-/

theorem crcShift_lt (c : Nat) (h : c < 65536) : crcShift c < 65536 := by
  have hp : (2 : Nat) ^ 16 = 65536 := by norm_num
  unfold crcShift
  split
  · have := Nat.xor_lt_two_pow (n := 16) (x := c / 2) (y := 0x8408) (by omega) (by omega)
    omega
  · rw [Nat.xor_zero]
    omega

theorem crcByte_lt (c b : Nat) (hc : c < 65536) (hb : b < 65536) :
    crcByte c b < 65536 := by
  have h0 : c ^^^ b < 65536 := by
    have hp : (2 : Nat) ^ 16 = 65536 := by norm_num
    have := Nat.xor_lt_two_pow (n := 16) (x := c) (y := b) (by omega) (by omega)
    omega
  unfold crcByte
  exact crcShift_lt _ (crcShift_lt _ (crcShift_lt _ (crcShift_lt _ (crcShift_lt _
    (crcShift_lt _ (crcShift_lt _ (crcShift_lt _ h0)))))))

theorem crcUpdate_lt :
    ∀ (l : List Nat) (c : Nat), c < 65536 → (∀ b ∈ l, b < 65536) →
      crcUpdate c l < 65536 := by
  intro l
  induction l with
  | nil => intro c hc _; exact hc
  | cons b t ih =>
    intro c hc hb
    have h1 : crcByte c b < 65536 := crcByte_lt c b hc (hb b (by simp))
    exact ih (crcByte c b) h1 (fun x hx => hb x (by simp [hx]))

theorem crc16_lt (l : List Nat) (hb : ∀ b ∈ l, b < 256) : crc16 l < 65536 := by
  unfold crc16
  have hp : (2 : Nat) ^ 16 = 65536 := by norm_num
  have h1 : crcUpdate 0xFFFF l < 65536 :=
    crcUpdate_lt l 0xFFFF (by omega) (fun b hbm => lt_trans (hb b hbm) (by omega))
  have := Nat.xor_lt_two_pow (n := 16) (x := crcUpdate 0xFFFF l) (y := 0xFFFF)
    (by omega) (by omega)
  omega

/-!
## The naked frame and its decode
-/

theorem Header.pack_length (h : Header) : (Header.pack h).length = 4 := rfl

theorem Header.pack_lt (h : Header) : ∀ b ∈ Header.pack h, b < 256 := by
  intro b hb
  simp only [Header.pack, List.mem_cons, List.not_mem_nil, or_false] at hb
  rcases hb with h1 | h1 | h1 | h1 <;> subst h1 <;> omega

theorem nakedFrame_length (src dst : Address) (contents : List Nat) :
    (nakedFrame src dst contents).length = contents.length + 8 := by
  simp only [nakedFrame, crcBeBytes, List.length_append, Header.pack_length]
  simp [MAGIC_WORD]
  omega

theorem nakedFrame_lt (src dst : Address) (contents : List Nat)
    (hbytes : ∀ b ∈ contents, b < 256) :
    ∀ b ∈ nakedFrame src dst contents, b < 256 := by
  intro b hb
  simp only [nakedFrame, List.mem_append] at hb
  rcases hb with ((hb | hb) | hb) | hb
  · simp only [MAGIC_WORD, List.mem_cons, List.not_mem_nil, or_false] at hb
    rcases hb with h1 | h1 <;> omega
  · exact Header.pack_lt _ b hb
  · exact hbytes b hb
  · simp only [crcBeBytes, List.mem_cons, List.not_mem_nil, or_false] at hb
    rcases hb with h1 | h1 <;> subst h1 <;> omega

/-- Decoding the body of a valid naked frame: the reader's `processFrame` on
the COBS encoding of `nakedFrame src dst contents` accepts and returns the
frame's header and payload. -/
theorem processFrame_nakedFrame (src dst : Address) (contents : List Nat)
    (hsrc : src.inner < 1024) (hdst : dst.inner < 1024)
    (hlen : contents.length ≤ 1006) (hbytes : ∀ b ∈ contents, b < 256) :
    processFrame (cobsEncode (nakedFrame src dst contents)) =
      .FrameOK ⟨src, dst, contents.length, 0⟩ contents := by
  have hdec := cobsDecode_cobsEncode (nakedFrame src dst contents)
  have hmsgbytes : ∀ b ∈ MAGIC_WORD ++ Header.pack ⟨src, dst, contents.length, 0⟩ ++
      contents, b < 256 := by
    intro b hb
    simp only [List.mem_append] at hb
    rcases hb with (hb | hb) | hb
    · simp only [MAGIC_WORD, List.mem_cons, List.not_mem_nil, or_false] at hb
      rcases hb with h1 | h1 <;> omega
    · exact Header.pack_lt _ b hb
    · exact hbytes b hb
  have hcrc : crc16 (MAGIC_WORD ++ Header.pack ⟨src, dst, contents.length, 0⟩ ++
      contents) < 65536 := crc16_lt _ hmsgbytes
  have hmsglen : (MAGIC_WORD ++ Header.pack ⟨src, dst, contents.length, 0⟩ ++
      contents).length = contents.length + 6 := by
    simp [MAGIC_WORD, List.length_append, Header.pack_length]
    omega
  have hnlen := nakedFrame_length src dst contents
  simp only [processFrame, hdec]
  rw [if_neg (by rw [MIN_NAKED_LEN_eq, hnlen]; omega)]
  have hnaked : nakedFrame src dst contents =
      (MAGIC_WORD ++ Header.pack ⟨src, dst, contents.length, 0⟩ ++ contents) ++
        crcBeBytes (crc16 (MAGIC_WORD ++ Header.pack ⟨src, dst, contents.length, 0⟩ ++
          contents)) := rfl
  -- the trailing checksum bytes and the message prefix
  have hsub : (nakedFrame src dst contents).length - CHECKSUM_LEN =
      (MAGIC_WORD ++ Header.pack ⟨src, dst, contents.length, 0⟩ ++ contents).length := by
    rw [hnlen, hmsglen]
    simp only [CHECKSUM_LEN]
    omega
  have hmsg : (nakedFrame src dst contents).take
      ((nakedFrame src dst contents).length - CHECKSUM_LEN) =
      MAGIC_WORD ++ Header.pack ⟨src, dst, contents.length, 0⟩ ++ contents := by
    rw [hsub]
    conv_lhs => rw [hnaked]
    exact List.take_left _ _
  have hgethi : (nakedFrame src dst contents).getD
      ((nakedFrame src dst contents).length - 2) 0 =
      crc16 (MAGIC_WORD ++ Header.pack ⟨src, dst, contents.length, 0⟩ ++ contents)
        / 256 % 256 := by
    have hidx : (nakedFrame src dst contents).length - 2 =
        (MAGIC_WORD ++ Header.pack ⟨src, dst, contents.length, 0⟩ ++ contents).length := by
      rw [hnlen, hmsglen]
      omega
    rw [hidx]
    conv_lhs => rw [hnaked]
    rw [List.getD_append_right _ _ _ _ (le_refl _), Nat.sub_self]
    rfl
  have hgetlo : (nakedFrame src dst contents).getD
      ((nakedFrame src dst contents).length - 1) 0 =
      crc16 (MAGIC_WORD ++ Header.pack ⟨src, dst, contents.length, 0⟩ ++ contents)
        % 256 := by
    have hidx : (nakedFrame src dst contents).length - 1 =
        (MAGIC_WORD ++ Header.pack ⟨src, dst, contents.length, 0⟩ ++ contents).length + 1 := by
      rw [hnlen, hmsglen]
      omega
    rw [hidx]
    conv_lhs => rw [hnaked]
    rw [List.getD_append_right _ _ _ _ (by omega), Nat.add_sub_cancel_left]
    rfl
  rw [if_neg (by
    rw [hmsg, hgethi, hgetlo]
    omega)]
  rw [hmsg]
  have hrest : (MAGIC_WORD ++ Header.pack ⟨src, dst, contents.length, 0⟩ ++
      contents).drop MAGIC_LEN = Header.pack ⟨src, dst, contents.length, 0⟩ ++ contents := by
    rw [List.append_assoc]
    exact List.drop_left MAGIC_WORD _
  have hmagic : (MAGIC_WORD ++ Header.pack ⟨src, dst, contents.length, 0⟩ ++
      contents).take MAGIC_LEN = MAGIC_WORD := by
    rw [List.append_assoc]
    exact List.take_left MAGIC_WORD _
  rw [if_neg (by rw [hmagic]; exact fun hc => hc rfl)]
  rw [hrest]
  have hhdr : (Header.pack ⟨src, dst, contents.length, 0⟩ ++ contents).take HEADER_LEN =
      Header.pack ⟨src, dst, contents.length, 0⟩ := by
    have := List.take_left (Header.pack ⟨src, dst, contents.length, 0⟩) contents
    rwa [Header.pack_length] at this
  have hcontent : (Header.pack ⟨src, dst, contents.length, 0⟩ ++ contents).drop
      HEADER_LEN = contents := by
    have := List.drop_left (Header.pack ⟨src, dst, contents.length, 0⟩) contents
    rwa [Header.pack_length] at this
  rw [hhdr, hcontent]
  have hunpack : Header.unpack (Header.pack ⟨src, dst, contents.length, 0⟩) =
      ⟨src, dst, contents.length, 0⟩ := by
    have := Header.unpack_pack src.inner dst.inner contents.length 0 hsrc hdst
      (by omega) (by omega)
    exact this
  rw [hunpack]
  rw [if_neg (by simp)]

/-- Splitting `feedMany` over an append of inputs. -/
theorem feedMany_append (l1 l2 : List Nat) :
    ∀ r : Reader, feedMany r (l1 ++ l2) =
      ((feedMany (feedMany r l1).1 l2).1,
        (feedMany r l1).2 ++ (feedMany (feedMany r l1).1 l2).2) := by
  induction l1 with
  | nil => intro r; simp [feedMany]
  | cons b t ih =>
    intro r
    simp only [List.cons_append, feedMany, List.append_eq]
    rw [ih (r.feed b).1]

/-!
## Claim theorems
-/

/-- C7: packing the header (src=13, dst=1023, len=800, reserved=0) under the
MSB-first layout (src bits 0..10, dst bits 10..20, len bits 20..30, reserved
bits 30..32) yields exactly the four bytes [0x03, 0x7F, 0xFC, 0x80]. -/
theorem C7_header_pack_bit_exact :
    Header.pack ⟨⟨13⟩, ⟨1023⟩, 800, 0⟩ = [0x03, 0x7F, 0xFC, 0x80] := by decide

/-- C8: for u16 inputs, `Address::new` fails with `AddressTooLarge` exactly
for values above 1023; in particular `Address::new 1024` fails, and for values
up to 1023 the constructed address's `to_primitive` returns the value. -/
theorem C8_address_new_range (a : Nat) (ha : a < 65536) :
    (Address.new a = none ↔ 1023 < a) ∧
    (a ≤ 1023 → Address.new a = some ⟨a⟩ ∧ Address.to_primitive ⟨a⟩ = a) ∧
    Address.new 1024 = none := by
  refine ⟨?_, ?_, by decide⟩
  · unfold Address.new convertPrimitive10
    by_cases h : a % 1024 = a
    · rw [if_pos h]
      simp only [Option.map_some']
      constructor
      · intro hc; cases hc
      · intro hgt
        have := Nat.mod_lt a (y := 1024) (by omega)
        omega
    · rw [if_neg h]
      simp only [Option.map_none']
      constructor
      · intro _
        rcases Nat.lt_or_ge 1023 a with hlt | hle
        · exact hlt
        · exact absurd (Nat.mod_eq_of_lt (by omega)) h
      · intro _; trivial
  · intro hle
    unfold Address.new convertPrimitive10
    have h : a % 1024 = a := Nat.mod_eq_of_lt (by omega)
    rw [if_pos h]
    simp [h, Address.to_primitive]

/-- Witness for C8 at the concrete inputs 1024 and 13. -/
theorem C8_address_new_range_witness :
    Address.new 1024 = none ∧ Address.new 13 = some ⟨13⟩ :=
  ⟨(C8_address_new_range 1024 (by decide)).2.2,
    ((C8_address_new_range 13 (by decide)).2.1 (by decide)).1⟩

/-- C9: when the reader's cursor equals `MAX_FRAME_LEN`, `feed` returns
`Overflow` for every input byte — including the 0x00 sentinel — leaving the
cursor and buffer contents unchanged; an explicit `clear()` resets the cursor
to 0, after which `feed` accepts bytes again (no longer returns `Overflow`). -/
theorem C9_reader_overflow_requires_clear (r : Reader) (b : Nat)
    (h : r.buf.length = MAX_FRAME_LEN) :
    r.feed b = (r, .Overflow) ∧ (Reader.clear r).buf.length = 0 ∧
    ((Reader.clear r).feed b).2 ≠ .Overflow := by
  refine ⟨?_, rfl, ?_⟩
  · unfold Reader.feed
    rw [if_pos (by omega)]
  · have hcl : Reader.clear r = ⟨[]⟩ := rfl
    rw [hcl]
    unfold Reader.feed
    have hM : ¬ (MAX_FRAME_LEN ≤ ([] : List Nat).length) := by
      rw [MAX_FRAME_LEN_eq]; simp
    rw [if_neg hM]
    by_cases hb : b = COBS_MARKER
    · rw [if_pos hb]
      simpa using processFrame_ne_Overflow []
    · rw [if_neg hb]
      simp

/-- Witness for C9: a reader filled with 1019 bytes, fed the sentinel. -/
theorem C9_reader_overflow_requires_clear_witness :
    (Reader.feed ⟨List.replicate MAX_FRAME_LEN 1⟩ 0 =
      (⟨List.replicate MAX_FRAME_LEN 1⟩, .Overflow)) ∧
    (Reader.clear ⟨List.replicate MAX_FRAME_LEN 1⟩).buf.length = 0 ∧
    ((Reader.clear ⟨List.replicate MAX_FRAME_LEN 1⟩).feed 0).2 ≠ .Overflow :=
  C9_reader_overflow_requires_clear ⟨List.replicate MAX_FRAME_LEN 1⟩ 0 (by simp)

/-- C2 counterexample: a fresh reader fed 1019 non-zero bytes is full; feeding
a 0x00 byte then returns the error result `Overflow` while the cursor stays at
1019 ≠ 0 — so not every error result leaves the cursor at 0, and a single 0x00
byte does not always resynchronize the reader. -/
theorem C2_counterexample :
    (feedMany Reader.new (List.replicate MAX_FRAME_LEN 1)).1 =
      ⟨List.replicate MAX_FRAME_LEN 1⟩ ∧
    ((feedMany Reader.new (List.replicate MAX_FRAME_LEN 1)).1.feed 0).2.is_error = true ∧
    ((feedMany Reader.new (List.replicate MAX_FRAME_LEN 1)).1.feed 0).1.buf.length ≠ 0 := by
  have h := feedMany_nonzero (List.replicate MAX_FRAME_LEN 1) Reader.new
    (by intro b hb; rw [List.eq_of_mem_replicate hb]; omega)
    (by rw [List.length_replicate]; show 0 + MAX_FRAME_LEN ≤ MAX_FRAME_LEN; omega)
  have h1 : (feedMany Reader.new (List.replicate MAX_FRAME_LEN 1)).1 =
      ⟨List.replicate MAX_FRAME_LEN 1⟩ := by
    rw [h]
    rfl
  have hfull : (⟨List.replicate MAX_FRAME_LEN 1⟩ : Reader).feed 0 =
      (⟨List.replicate MAX_FRAME_LEN 1⟩, .Overflow) :=
    feed_of_full _ 0
      (by show MAX_FRAME_LEN ≤ (List.replicate MAX_FRAME_LEN 1).length
          rw [List.length_replicate])
  refine ⟨h1, ?_, ?_⟩
  · rw [h1, hfull]
    rfl
  · rw [h1, hfull]
    show (List.replicate MAX_FRAME_LEN 1).length ≠ 0
    rw [List.length_replicate, MAX_FRAME_LEN_eq]
    omega

/-- C2 (amended): every error result of `feed` other than `Overflow` leaves
the reader cleared (cursor 0); `Overflow` leaves the reader — including a full
cursor — unchanged; and feeding a 0x00 byte resets the cursor to 0 whenever
the reader is not full, so a 0x00 byte resynchronizes any non-full reader. -/
theorem C2_amended_error_recovery (r : Reader) (b : Nat) :
    ((r.feed b).2.is_error = true → (r.feed b).2 ≠ .Overflow → (r.feed b).1.buf = []) ∧
    ((r.feed b).2 = .Overflow → (r.feed b).1 = r) ∧
    (b = 0 → r.buf.length < MAX_FRAME_LEN → (r.feed b).1.buf = []) := by
  unfold Reader.feed
  by_cases hfull : MAX_FRAME_LEN ≤ r.buf.length
  · rw [if_pos hfull]
    exact ⟨fun _ hne => absurd rfl hne, fun _ => rfl, fun _ hlt => by omega⟩
  · rw [if_neg hfull]
    by_cases hb : b = COBS_MARKER
    · rw [if_pos hb]
      refine ⟨fun _ _ => rfl, fun hov => ?_, fun _ _ => rfl⟩
      exact absurd hov (by simpa using processFrame_ne_Overflow r.buf)
    · rw [if_neg hb]
      refine ⟨fun herr _ => ?_, fun hov => ?_, fun h0 _ => ?_⟩
      · simp [ReadResult.is_error] at herr
      · simp at hov
      · exact absurd h0 (by simpa [COBS_MARKER] using hb)

/-- Witness for C2 (amended): feeding 0x00 to a fresh reader clears it. -/
theorem C2_amended_error_recovery_witness :
    (Reader.feed Reader.new 0).1.buf = [] :=
  (C2_amended_error_recovery Reader.new 0).2.2 rfl
    (by rw [MAX_FRAME_LEN_eq]; simp [Reader.new])

theorem takeWhile_append_zero (t : List Nat) :
    ∀ p : List Nat, (∀ b ∈ p, b ≠ 0) →
      (p ++ 0 :: t).takeWhile (fun b => b != 0) = p := by
  intro p
  induction p with
  | nil => intro _; simp [List.takeWhile_cons]
  | cons a q ih =>
    intro hp
    have ha : (a != 0) = true := by
      have := hp a (by simp)
      simpa using this
    simp only [List.cons_append, List.takeWhile_cons, ha, if_true]
    rw [ih (fun b hb => hp b (by simp [hb]))]

/-- One encoder step on a short non-zero run followed by a zero byte. -/
theorem cobsEncode_run_zero (p t : List Nat) (hp : ∀ b ∈ p, b ≠ 0)
    (hplen : p.length ≤ 253) :
    cobsEncode (p ++ 0 :: t) = (p.length + 1) :: (p ++ cobsEncode t) := by
  have htw := takeWhile_append_zero t p hp
  have hblock : ((p ++ 0 :: t).takeWhile (fun b => b != 0)).take 254 = p := by
    rw [htw]
    exact List.take_of_length_le (by omega)
  have hlen2 : (p ++ 0 :: t).length = p.length + 1 + t.length := by
    simp [List.length_append]
    omega
  show cobsEncodeGo (p ++ 0 :: t) ((p ++ 0 :: t).length + 1) = _
  simp only [cobsEncodeGo]
  rw [hblock]
  rw [if_neg (by omega)]
  have hdrop := List.drop_left p (0 :: t)
  rw [hdrop]
  show (p.length + 1) :: (p ++ cobsEncodeGo t (p ++ 0 :: t).length) = _
  rw [cobsEncodeGo_fuel ((p ++ 0 :: t).length) (t.length + 1) t (by omega) (by omega)]
  rfl

/-- Each leading zero byte costs exactly one encoded byte. -/
theorem cobsEncode_replicate_zero_length :
    ∀ (k : Nat) (t : List Nat),
      (cobsEncode (List.replicate k 0 ++ t)).length = k + (cobsEncode t).length := by
  intro k
  induction k with
  | zero => intro t; simp
  | succ k ih =>
    intro t
    rw [List.replicate_succ, List.cons_append]
    have hrun := cobsEncode_run_zero [] (List.replicate k 0 ++ t) (by simp) (by simp)
    simp only [List.nil_append, List.length_nil] at hrun
    rw [hrun]
    simp only [List.length_cons, ih t]
    omega

/-- C1: for every source and destination address in [0, 1023] and every
payload of at most 1006 bytes, `Writer::package` succeeds with the COBS
encoding of the naked frame followed by the 0x00 sentinel, and feeding that
byte sequence one byte at a time into a fresh `Reader` yields `NotYet` for
every byte except the final sentinel and `FrameOK` with header
(src, dst, |payload|) and the payload as contents on the final 0x00 byte. -/
theorem C1_roundtrip (src dst : Address) (contents : List Nat)
    (hsrc : src.inner < 1024) (hdst : dst.inner < 1024)
    (hlen : contents.length ≤ 1006) (hbytes : ∀ b ∈ contents, b < 256) :
    Writer.package src dst contents =
      .ok (cobsEncode (nakedFrame src dst contents) ++ [0]) ∧
    feedMany Reader.new (cobsEncode (nakedFrame src dst contents) ++ [0]) =
      (⟨[]⟩, List.replicate (cobsEncode (nakedFrame src dst contents)).length .NotYet ++
        [.FrameOK ⟨src, dst, contents.length, 0⟩ contents]) := by
  have hnlen := nakedFrame_length src dst contents
  have hElen : (cobsEncode (nakedFrame src dst contents)).length ≤ 1018 := by
    have h := cobsEncode_length_le (nakedFrame src dst contents)
    rw [hnlen] at h
    omega
  constructor
  · have hcp : convertPrimitive10 contents.length = some (contents.length % 1024) := by
      unfold convertPrimitive10
      rw [if_pos (Nat.mod_eq_of_lt (by omega))]
    simp only [Writer.package, hcp]
    rw [if_pos (by rw [MAX_FRAME_LEN_eq]; omega)]
    rfl
  · have hE : feedMany Reader.new (cobsEncode (nakedFrame src dst contents)) =
        (⟨cobsEncode (nakedFrame src dst contents)⟩,
          List.replicate (cobsEncode (nakedFrame src dst contents)).length .NotYet) := by
      have h := feedMany_nonzero (cobsEncode (nakedFrame src dst contents)) Reader.new
        (cobsEncode_ne_zero _)
        (by show 0 + (cobsEncode (nakedFrame src dst contents)).length ≤ MAX_FRAME_LEN
            rw [MAX_FRAME_LEN_eq]
            omega)
      rw [h]
      rfl
    have hfeed : (⟨cobsEncode (nakedFrame src dst contents)⟩ : Reader).feed 0 =
        (⟨[]⟩, .FrameOK ⟨src, dst, contents.length, 0⟩ contents) := by
      unfold Reader.feed
      rw [if_neg (by
        show ¬(MAX_FRAME_LEN ≤ (cobsEncode (nakedFrame src dst contents)).length)
        rw [MAX_FRAME_LEN_eq]
        omega)]
      rw [if_pos (show (0 : Nat) = COBS_MARKER from rfl)]
      rw [processFrame_nakedFrame src dst contents hsrc hdst hlen hbytes]
    have hsingle : feedMany (⟨cobsEncode (nakedFrame src dst contents)⟩ : Reader) [0] =
        (⟨[]⟩, [.FrameOK ⟨src, dst, contents.length, 0⟩ contents]) := by
      simp only [feedMany, hfeed]
    rw [feedMany_append, hE, hsingle]

/-- Witness for C1 at src 13, dst 169, payload [5, 0, 7]. -/
theorem C1_roundtrip_witness :
    Writer.package ⟨13⟩ ⟨169⟩ [5, 0, 7] =
      .ok (cobsEncode (nakedFrame ⟨13⟩ ⟨169⟩ [5, 0, 7]) ++ [0]) ∧
    feedMany Reader.new (cobsEncode (nakedFrame ⟨13⟩ ⟨169⟩ [5, 0, 7]) ++ [0]) =
      (⟨[]⟩, List.replicate (cobsEncode (nakedFrame ⟨13⟩ ⟨169⟩ [5, 0, 7])).length .NotYet ++
        [.FrameOK ⟨⟨13⟩, ⟨169⟩, 3, 0⟩ [5, 0, 7]]) :=
  C1_roundtrip ⟨13⟩ ⟨169⟩ [5, 0, 7] (by decide) (by decide) (by decide) (by decide)

/-- C3 counterexample: the all-zero payload of 1007 bytes is longer than 1006
yet `Writer::package` does not fail with `TooLong`: the length 1007 still fits
the 10-bit header length field, and the zero-rich payload COBS-encodes to
fewer than `MAX_FRAME_LEN` bytes. -/
theorem C3_counterexample :
    Writer.package ⟨13⟩ ⟨1023⟩ (List.replicate 1007 0) ≠ .error .TooLong := by
  have key : ∀ CB : List Nat, CB.length = 2 →
      (cobsEncode ([107, 73, 3, 127, 255, 188] ++
        (List.replicate 1007 0 ++ CB))).length ≤ 1016 := by
    intro CB hCB
    have hrep : List.replicate 1007 (0 : Nat) = 0 :: List.replicate 1006 0 := rfl
    rw [hrep]
    show (cobsEncode ([107, 73, 3, 127, 255, 188] ++
      (0 :: (List.replicate 1006 0 ++ CB)))).length ≤ 1016
    rw [cobsEncode_run_zero [107, 73, 3, 127, 255, 188] _ (by decide) (by decide)]
    simp only [List.length_cons, List.length_append, List.length_nil]
    rw [cobsEncode_replicate_zero_length 1006 CB]
    have h3 := cobsEncode_length_le CB
    omega
  have hA : MAGIC_WORD ++
      Header.pack ⟨⟨13⟩, ⟨1023⟩, (List.replicate 1007 (0 : Nat)).length, 0⟩ =
      [107, 73, 3, 127, 255, 188] := by
    rw [List.length_replicate]
    decide
  have hnaked : nakedFrame ⟨13⟩ ⟨1023⟩ (List.replicate 1007 0) =
      [107, 73, 3, 127, 255, 188] ++ (List.replicate 1007 0 ++
        crcBeBytes (crc16 ([107, 73, 3, 127, 255, 188] ++ List.replicate 1007 0))) := by
    show (MAGIC_WORD ++ Header.pack ⟨⟨13⟩, ⟨1023⟩, (List.replicate 1007 (0 : Nat)).length, 0⟩ ++
        List.replicate 1007 0) ++
      crcBeBytes (crc16 (MAGIC_WORD ++
        Header.pack ⟨⟨13⟩, ⟨1023⟩, (List.replicate 1007 (0 : Nat)).length, 0⟩ ++
        List.replicate 1007 0)) = _
    rw [List.append_assoc (MAGIC_WORD ++ _) (List.replicate 1007 0)]
    rw [hA]
  have hlen := key (crcBeBytes (crc16 ([107, 73, 3, 127, 255, 188] ++
    List.replicate 1007 0))) rfl
  have hcp : convertPrimitive10 (List.replicate 1007 (0 : Nat)).length = some 1007 := by
    rw [List.length_replicate]
    decide
  simp only [Writer.package, hcp, hnaked]
  rw [if_pos (by rw [MAX_FRAME_LEN_eq]; omega)]
  exact fun hcontra => Except.noConfusion hcontra

/-- C3 (amended): `TooLong` implies the payload is longer than 1006 bytes — a
payload of at most 1006 bytes always packages successfully — and every payload
longer than 1023 bytes fails with `TooLong` (its length does not fit the
10-bit header field).  For lengths 1007..=1023 the outcome depends on the
COBS-encoded size of the frame (see the counterexample). -/
theorem C3_amended_toolong (src dst : Address) (contents : List Nat) :
    (contents.length ≤ 1006 →
      Writer.package src dst contents =
        .ok (cobsEncode (nakedFrame src dst contents) ++ [0])) ∧
    (1023 < contents.length → Writer.package src dst contents = .error .TooLong) := by
  constructor
  · intro hlen
    have hnlen := nakedFrame_length src dst contents
    have hElen : (cobsEncode (nakedFrame src dst contents)).length ≤ 1018 := by
      have h := cobsEncode_length_le (nakedFrame src dst contents)
      rw [hnlen] at h
      omega
    have hcp : convertPrimitive10 contents.length = some (contents.length % 1024) := by
      unfold convertPrimitive10
      rw [if_pos (Nat.mod_eq_of_lt (by omega))]
    simp only [Writer.package, hcp]
    rw [if_pos (by rw [MAX_FRAME_LEN_eq]; omega)]
    rfl
  · intro hlen
    have hcp : convertPrimitive10 contents.length = none := by
      unfold convertPrimitive10
      rw [if_neg (by
        intro hmod
        have := Nat.mod_lt contents.length (y := 1024) (by omega)
        omega)]
    simp only [Writer.package, hcp]

/-- Witness for C3 (amended) at a short and an over-long payload. -/
theorem C3_amended_toolong_witness :
    Writer.package ⟨13⟩ ⟨169⟩ [5, 0, 7] =
      .ok (cobsEncode (nakedFrame ⟨13⟩ ⟨169⟩ [5, 0, 7]) ++ [0]) ∧
    Writer.package ⟨13⟩ ⟨169⟩ (List.replicate 1024 1) = .error .TooLong :=
  ⟨(C3_amended_toolong ⟨13⟩ ⟨169⟩ [5, 0, 7]).1 (by decide),
    (C3_amended_toolong ⟨13⟩ ⟨169⟩ (List.replicate 1024 1)).2
      (by rw [List.length_replicate]; omega)⟩

theorem get?_some_lt {l : List Nat} {n c : Nat} (h : l.get? n = some c) :
    n < l.length := by
  rw [List.get?_eq_getElem?] at h
  exact (List.getElem?_eq_some.1 h).1

/-- C10: `CsmaStrategy::receive` never modifies the state-machine state: for
every strategy value and every transceiver read outcome (a byte, would-block,
a hardware frame error, or an underlying error) the `state` field after the
call equals the `state` field before it; only the reader and the
`frame_errors` counter are touched. -/
theorem C10_receive_preserves_state (s : CsmaStrategy) (ro : ReadOutcome) :
    (s.receive ro).1.state = s.state := by
  cases ro with
  | byte b =>
    simp only [CsmaStrategy.receive]
    split <;> rfl
  | wouldBlock => rfl
  | frameError => rfl
  | underlying e => rfl

/-- C5 counterexample: the value ⟨frame=[5], send=1, receive=0⟩ satisfies the
invariant receive_index ≤ send_index ≤ frame.len, yet `notify_send` pushes
send_index to 2 > 1 = frame.len; and on ⟨frame=[5], send=0, receive=0⟩
(invariant holds) a matching `feed_as_check` byte pushes receive_index past
send_index.  Not every single operation preserves the invariant. -/
theorem C5_counterexample :
    ((CsmaFrameInProgress.mk [5] 1 0).receive_ptr ≤
        (CsmaFrameInProgress.mk [5] 1 0).send_ptr ∧
      (CsmaFrameInProgress.mk [5] 1 0).send_ptr ≤
        (CsmaFrameInProgress.mk [5] 1 0).frame.length) ∧
    ¬ ((CsmaFrameInProgress.mk [5] 1 0).notify_send.send_ptr ≤
        (CsmaFrameInProgress.mk [5] 1 0).notify_send.frame.length) ∧
    ((CsmaFrameInProgress.mk [5] 0 0).receive_ptr ≤
        (CsmaFrameInProgress.mk [5] 0 0).send_ptr ∧
      (CsmaFrameInProgress.mk [5] 0 0).send_ptr ≤
        (CsmaFrameInProgress.mk [5] 0 0).frame.length) ∧
    ¬ (((CsmaFrameInProgress.mk [5] 0 0).feed_as_check 5).1.receive_ptr ≤
        ((CsmaFrameInProgress.mk [5] 0 0).feed_as_check 5).1.send_ptr) := by
  decide

/-- C5 (amended): `new` and `reset` set both indices to 0; `feed_as_check`
preserves receive_index ≤ frame.len and leaves send_index and the frame bytes
unchanged; `notify_send` preserves send_index ≤ frame.len whenever it is
invoked after `peek_for_send` returned a byte (send_index < frame.len), which
is how the strategy calls it, and leaves receive_index unchanged
(`peek_for_send` mutates nothing and is modelled as pure).  The stronger
invariant receive_index ≤ send_index is not preserved in general. -/
theorem C5_amended_index_bounds (f : CsmaFrameInProgress) (b : Nat) :
    (f.receive_ptr ≤ f.frame.length →
      (f.feed_as_check b).1.receive_ptr ≤ f.frame.length) ∧
    (f.peek_for_send.isSome = true → f.notify_send.send_ptr ≤ f.frame.length) ∧
    (CsmaFrameInProgress.new f.frame).send_ptr = 0 ∧
    (CsmaFrameInProgress.new f.frame).receive_ptr = 0 ∧
    f.reset.send_ptr = 0 ∧ f.reset.receive_ptr = 0 ∧
    (f.feed_as_check b).1.send_ptr = f.send_ptr ∧
    (f.feed_as_check b).1.frame = f.frame ∧
    f.notify_send.receive_ptr = f.receive_ptr := by
  refine ⟨?_, ?_, rfl, rfl, rfl, rfl, ?_, ?_, rfl⟩
  · intro hrec
    unfold CsmaFrameInProgress.feed_as_check
    split
    · rename_i c heq
      have hlt : f.receive_ptr < f.frame.length := get?_some_lt heq
      split
      · show f.receive_ptr + 1 ≤ f.frame.length
        omega
      · exact hrec
    · exact hrec
  · intro hpeek
    unfold CsmaFrameInProgress.peek_for_send at hpeek
    have hlt : f.send_ptr < f.frame.length := by
      rcases hg : f.frame.get? f.send_ptr with _ | c
      · rw [hg] at hpeek
        exact absurd hpeek (by simp)
      · exact get?_some_lt hg
    show f.send_ptr + 1 ≤ f.frame.length
    omega
  · unfold CsmaFrameInProgress.feed_as_check
    split
    · split <;> rfl
    · rfl
  · unfold CsmaFrameInProgress.feed_as_check
    split
    · split <;> rfl
    · rfl

/-- Witness for C5 (amended) on the one-byte frame [5]. -/
theorem C5_amended_index_bounds_witness :
    ((CsmaFrameInProgress.mk [5] 0 0).feed_as_check 5).1.receive_ptr ≤
      (CsmaFrameInProgress.mk [5] 0 0).frame.length ∧
    (CsmaFrameInProgress.mk [5] 0 0).notify_send.send_ptr ≤
      (CsmaFrameInProgress.mk [5] 0 0).frame.length :=
  ⟨(C5_amended_index_bounds (CsmaFrameInProgress.mk [5] 0 0) 5).1 (by decide),
    (C5_amended_index_bounds (CsmaFrameInProgress.mk [5] 0 0) 5).2.1 (by decide)⟩

/-- C4 counterexample: in state `Sending` with a pending reader byte, a
loopback mismatch (expected 2, read 9) leaves the reader holding the offending
byte (cursor 1), not cleared to cursor 0: the code clears the reader and then
feeds the mismatching byte into it. -/
theorem C4_counterexample :
    (CsmaStrategy.send_or_receive ⟨⟨[7]⟩, .Sending, ⟨0⟩⟩ ⟨[2, 3], 1, 0⟩
      ⟨.byte 9, false, 0, 0, .ok⟩).1.reader.buf ≠ [] := by
  decide

/-- C4 (amended): on a call to `send_or_receive` in which (a) the strategy is
in `Sending` or `ConfirmingSendWithoutErrors` and the byte read back from the
transceiver mismatches the expected own-frame byte at receive_index, or (b)
the read reports a hardware `FrameError`, the call increments
`stats.frame_errors` by exactly one, resets both indices of the frame in
progress to 0, sets the state to `WaitForBusIdle` and returns `WouldBlock`; in
case (b) the reader is cleared, while in case (a) it is cleared and then fed
the offending byte (so it ends holding at most that one byte). -/
theorem C4_amended_error_step (s : CsmaStrategy) (f : CsmaFrameInProgress)
    (env : CsmaEnv) (b : Nat) :
    ((s.state = .Sending ∨ s.state = .ConfirmingSendWithoutErrors) →
      env.read = .byte b → f.frame.get? f.receive_ptr ≠ some b →
      s.send_or_receive f env =
        (⟨((Reader.clear s.reader).feed b).1, .WaitForBusIdle,
          ⟨s.stats.frame_errors + 1⟩⟩, f.reset, .err .wouldBlock)) ∧
    (env.read = .frameError →
      s.send_or_receive f env =
        (⟨Reader.clear s.reader, .WaitForBusIdle,
          ⟨s.stats.frame_errors + 1⟩⟩, f.reset, .err .wouldBlock)) := by
  obtain ⟨rd, bi, tnow, dur, wr⟩ := env
  constructor
  · intro hstate henv hmm
    have hrd : rd = .byte b := henv
    subst hrd
    have hfeed : f.feed_as_check b = (f, .error ()) := by
      unfold CsmaFrameInProgress.feed_as_check
      split
      · rename_i c heq
        split
        · rename_i hcb
          exact absurd (hcb ▸ heq) hmm
        · rfl
      · rfl
    unfold CsmaStrategy.send_or_receive
    rcases hstate with h | h <;> rw [h] <;> simp only [hfeed]
  · intro henv
    have hrd : rd = .frameError := henv
    subst hrd
    rfl

/-- Witness for C4 (amended): both error cases at concrete inputs. -/
theorem C4_amended_error_step_witness :
    CsmaStrategy.send_or_receive ⟨⟨[7]⟩, .Sending, ⟨0⟩⟩ ⟨[2, 3], 1, 0⟩
      ⟨.byte 9, false, 0, 0, .ok⟩ =
      (⟨⟨[9]⟩, .WaitForBusIdle, ⟨1⟩⟩, ⟨[2, 3], 0, 0⟩, .err .wouldBlock) ∧
    CsmaStrategy.send_or_receive ⟨⟨[7]⟩, .Sending, ⟨0⟩⟩ ⟨[2, 3], 1, 0⟩
      ⟨.frameError, false, 0, 0, .ok⟩ =
      (⟨⟨[]⟩, .WaitForBusIdle, ⟨1⟩⟩, ⟨[2, 3], 0, 0⟩, .err .wouldBlock) :=
  ⟨(C4_amended_error_step ⟨⟨[7]⟩, .Sending, ⟨0⟩⟩ ⟨[2, 3], 1, 0⟩
      ⟨.byte 9, false, 0, 0, .ok⟩ 9).1 (Or.inl rfl) rfl (by decide),
    (C4_amended_error_step ⟨⟨[7]⟩, .Sending, ⟨0⟩⟩ ⟨[2, 3], 1, 0⟩
      ⟨.frameError, false, 0, 0, .ok⟩ 9).2 rfl⟩

/-!
## CRC-16 detects every single-byte substitution

The per-byte update is `crcShift` iterated eight times on `state ^^^ byte`;
`crcShift` is injective on 16-bit states, so two message prefixes differing in
one byte keep different register states forever, and the final checksums
differ.
-/

theorem crcShift_inj (x y : Nat) (hx : x < 65536) (hy : y < 65536)
    (h : crcShift x = crcShift y) : x = y := by
  have hx2 : x / 2 < 2 ^ 15 := by omega
  have hy2 : y / 2 < 2 ^ 15 := by omega
  unfold crcShift at h
  by_cases hxp : x % 2 = 1 <;> by_cases hyp : y % 2 = 1
  · rw [if_pos hxp, if_pos hyp] at h
    have h2 := congrArg (fun z => z ^^^ 0x8408) h
    simp only [Nat.xor_assoc, Nat.xor_self, Nat.xor_zero] at h2
    omega
  · rw [if_pos hxp, if_neg hyp, Nat.xor_zero] at h
    exfalso
    have hbx : (x / 2 ^^^ 0x8408).testBit 15 = true := by
      rw [Nat.testBit_xor, Nat.testBit_lt_two_pow hx2]
      decide
    rw [h] at hbx
    rw [Nat.testBit_lt_two_pow hy2] at hbx
    cases hbx
  · rw [if_neg hxp, if_pos hyp, Nat.xor_zero] at h
    exfalso
    have hby : (y / 2 ^^^ 0x8408).testBit 15 = true := by
      rw [Nat.testBit_xor, Nat.testBit_lt_two_pow hy2]
      decide
    rw [← h] at hby
    rw [Nat.testBit_lt_two_pow hx2] at hby
    cases hby
  · rw [if_neg hxp, if_neg hyp, Nat.xor_zero, Nat.xor_zero] at h
    omega

theorem crcByte_inj (c c' b b' : Nat) (hc : c < 65536) (hc' : c' < 65536)
    (hb : b < 65536) (hb' : b' < 65536) (hne : c ^^^ b ≠ c' ^^^ b') :
    crcByte c b ≠ crcByte c' b' := by
  intro h
  unfold crcByte at h
  have l0 : c ^^^ b < 65536 := by
    have hp : (2 : Nat) ^ 16 = 65536 := by norm_num
    have := Nat.xor_lt_two_pow (n := 16) (x := c) (y := b) (by omega) (by omega)
    omega
  have r0 : c' ^^^ b' < 65536 := by
    have hp : (2 : Nat) ^ 16 = 65536 := by norm_num
    have := Nat.xor_lt_two_pow (n := 16) (x := c') (y := b') (by omega) (by omega)
    omega
  have l1 := crcShift_lt _ l0
  have r1 := crcShift_lt _ r0
  have l2 := crcShift_lt _ l1
  have r2 := crcShift_lt _ r1
  have l3 := crcShift_lt _ l2
  have r3 := crcShift_lt _ r2
  have l4 := crcShift_lt _ l3
  have r4 := crcShift_lt _ r3
  have l5 := crcShift_lt _ l4
  have r5 := crcShift_lt _ r4
  have l6 := crcShift_lt _ l5
  have r6 := crcShift_lt _ r5
  have l7 := crcShift_lt _ l6
  have r7 := crcShift_lt _ r6
  exact hne (crcShift_inj _ _ l0 r0 (crcShift_inj _ _ l1 r1 (crcShift_inj _ _ l2 r2
    (crcShift_inj _ _ l3 r3 (crcShift_inj _ _ l4 r4 (crcShift_inj _ _ l5 r5
      (crcShift_inj _ _ l6 r6 (crcShift_inj _ _ l7 r7 h))))))))

theorem crcUpdate_state_inj :
    ∀ (l : List Nat) (c c' : Nat), c < 65536 → c' < 65536 → (∀ b ∈ l, b < 256) →
      c ≠ c' → crcUpdate c l ≠ crcUpdate c' l := by
  intro l
  induction l with
  | nil => intro c c' _ _ _ hne; exact hne
  | cons b t ih =>
    intro c c' hc hc' hb hne
    have hb0 : b < 65536 := lt_trans (hb b (by simp)) (by omega)
    have hstep : crcByte c b ≠ crcByte c' b := by
      apply crcByte_inj c c' b b hc hc' hb0 hb0
      intro hx
      have h2 := congrArg (fun z => z ^^^ b) hx
      simp only [Nat.xor_assoc, Nat.xor_self, Nat.xor_zero] at h2
      exact hne h2
    have hcb : crcByte c b < 65536 := crcByte_lt c b hc hb0
    have hcb' : crcByte c' b < 65536 := crcByte_lt c' b hc' hb0
    exact ih (crcByte c b) (crcByte c' b) hcb hcb' (fun x hx => hb x (by simp [hx])) hstep

/-- Two byte sequences that differ by a single byte substitution have
different CRC-16/X.25 checksums. -/
theorem crc16_set_ne (l : List Nat) (j v : Nat) (hj : j < l.length)
    (hb : ∀ b ∈ l, b < 256) (hv : v < 256) (hne : l.get? j ≠ some v) :
    crc16 (l.set j v) ≠ crc16 l := by
  have hsplitl : l = l.take j ++ l.get ⟨j, hj⟩ :: l.drop (j + 1) := by
    conv_lhs => rw [← List.take_append_drop j l]
    rw [List.drop_eq_getElem_cons hj]
    rfl
  have hsplitset : l.set j v = l.take j ++ v :: l.drop (j + 1) := by
    conv_lhs => rw [hsplitl]
    rw [List.set_append]
    rw [if_neg (by rw [List.length_take, Nat.min_eq_left (le_of_lt hj)]; omega)]
    rw [List.length_take, Nat.min_eq_left (le_of_lt hj), Nat.sub_self, List.set_cons_zero]
  have hvne : l.get ⟨j, hj⟩ ≠ v := by
    intro hcontra
    apply hne
    rw [List.get?_eq_getElem?, List.getElem?_eq_some]
    exact ⟨hj, hcontra⟩
  have hclt : crcUpdate 0xFFFF (l.take j) < 65536 :=
    crcUpdate_lt _ _ (by omega)
      (fun x hx => lt_trans (hb x (List.mem_of_mem_take hx)) (by omega))
  have hbj : l.get ⟨j, hj⟩ < 256 := hb _ (l.get_mem j hj)
  have hstep : crcByte (crcUpdate 0xFFFF (l.take j)) v ≠
      crcByte (crcUpdate 0xFFFF (l.take j)) (l.get ⟨j, hj⟩) := by
    apply crcByte_inj _ _ _ _ hclt hclt (by omega) (by omega)
    intro hx
    have h2 := congrArg (fun z => crcUpdate 0xFFFF (l.take j) ^^^ z) hx
    simp only [← Nat.xor_assoc, Nat.xor_self, Nat.zero_xor] at h2
    exact hvne h2.symm
  intro hcontra
  unfold crc16 at hcontra
  have hupd : crcUpdate 0xFFFF (l.set j v) ≠ crcUpdate 0xFFFF l := by
    conv_lhs => rw [hsplitset]
    conv_rhs => rw [hsplitl]
    unfold crcUpdate
    rw [List.foldl_append, List.foldl_append]
    show crcUpdate (crcByte (crcUpdate 0xFFFF (l.take j)) v) (l.drop (j + 1)) ≠
      crcUpdate (crcByte (crcUpdate 0xFFFF (l.take j)) (l.get ⟨j, hj⟩)) (l.drop (j + 1))
    apply crcUpdate_state_inj
    · exact crcByte_lt _ _ hclt (by omega)
    · exact crcByte_lt _ _ hclt (by omega)
    · exact fun x hx => hb x (List.mem_of_mem_drop hx)
    · exact hstep
  apply hupd
  have h2 := congrArg (fun z => z ^^^ 0xFFFF) hcontra
  simp only [Nat.xor_assoc, Nat.xor_self, Nat.xor_zero] at h2
  exact h2

/-!
## Perturbing a verbatim data byte of a COBS encoding
-/

theorem set_split (l : List Nat) (n i v : Nat) (hn : n ≤ l.length) :
    l.set i v = if i < n then (l.take n).set i v ++ l.drop n
      else l.take n ++ (l.drop n).set (i - n) v := by
  conv_lhs => rw [← List.take_append_drop n l]
  rw [List.set_append, List.length_take, Nat.min_eq_left hn]

/-- Every pair recorded by `cobsDataPairs` points at a verbatim byte: the
encoded byte at position `i` equals the source byte at position `j`, and
overwriting the encoded byte changes exactly that source byte of the decode. -/
theorem cobsDataPairs_sound :
    ∀ (f : Nat) (xs : List Nat), xs.length < f →
      ∀ i j, (i, j) ∈ cobsDataPairsGo xs f →
        j < xs.length ∧ (cobsEncodeGo xs f).get? i = xs.get? j ∧
        ∀ v g, (cobsEncodeGo xs f).length < g →
          cobsDecodeGo ((cobsEncodeGo xs f).set i v) g = some (xs.set j v) := by
  intro f
  induction f with
  | zero => intro xs h; omega
  | succ f ih =>
    intro xs hf i j hij
    by_cases hB : 254 ≤ ((xs.takeWhile (fun b => b != 0)).take 254).length
    · -- a full block of 254 non-zero bytes
      have hmin := List.length_take 254 (xs.takeWhile (fun b => b != 0))
      have htwle := length_takeWhile_le' (fun b => b != 0) xs
      have htw254 : 254 ≤ (xs.takeWhile (fun b => b != 0)).length := by omega
      have h254xs : 254 ≤ xs.length := by omega
      have hblock : (xs.takeWhile (fun b => b != 0)).take 254 = xs.take 254 := by
        obtain ⟨u, hu⟩ := List.takeWhile_prefix (l := xs) (fun b => b != 0)
        calc (xs.takeWhile (fun b => b != 0)).take 254
            = ((xs.takeWhile (fun b => b != 0)) ++ u).take 254 :=
              (List.take_append_of_le_length htw254).symm
          _ = xs.take 254 := by rw [hu]
      have hE : cobsEncodeGo xs (f + 1) =
          255 :: (xs.take 254 ++ cobsEncodeGo (xs.drop 254) f) := by
        simp only [cobsEncodeGo]
        rw [if_pos hB, hblock]
      have hP : cobsDataPairsGo xs (f + 1) =
          (List.range 254).map (fun k => (k + 1, k)) ++
            (cobsDataPairsGo (xs.drop 254) f).map (fun p => (p.1 + 255, p.2 + 254)) := by
        simp only [cobsDataPairsGo]
        rw [if_pos hB]
      have hlen : (xs.take 254).length = 254 := by
        rw [List.length_take]; omega
      have hrecfuel : (xs.drop 254).length < f := by
        rw [List.length_drop]; omega
      rw [hP] at hij
      rw [hE]
      rcases List.mem_append.1 hij with hmem | hmem
      · rcases List.mem_map.1 hmem with ⟨k, hk, hpk⟩
        injection hpk with hi hj
        subst hi
        subst hj
        have hk254 : k < 254 := List.mem_range.1 hk
        refine ⟨by omega, ?_, ?_⟩
        · simp only [List.get?_eq_getElem?, List.getElem?_cons_succ]
          rw [List.getElem?_append, if_pos (by rw [hlen]; omega)]
          rw [List.getElem?_take, if_pos hk254]
        · intro v g hg
          rw [List.set_cons_succ, List.set_append, if_pos (by rw [hlen]; omega)]
          obtain ⟨g, rfl⟩ : ∃ g', g = g' + 1 := ⟨g - 1, by omega⟩
          have hsetlen : ((xs.take 254).set k v).length = 254 := by
            rw [List.length_set, hlen]
          have hreclen : (cobsEncodeGo (xs.drop 254) f).length < g := by
            simp only [List.length_cons, List.length_append, hlen] at hg
            omega
          simp only [cobsDecodeGo]
          rw [if_neg (by simp only [List.length_append, hsetlen]; omega)]
          have ht := List.take_left ((xs.take 254).set k v) (cobsEncodeGo (xs.drop 254) f)
          have hd := List.drop_left ((xs.take 254).set k v) (cobsEncodeGo (xs.drop 254) f)
          rw [hsetlen] at ht hd
          have h254 : (255 : Nat) - 1 = 254 := rfl
          rw [h254, ht, hd]
          rw [cobsDecodeGo_encodeGo f (xs.drop 254) hrecfuel g hreclen]
          simp only [Option.map_some', ne_eq, not_true_eq_false, false_and, if_false,
            Option.some.injEq]
          rw [set_split xs 254 k v h254xs, if_pos hk254]
      · rcases List.mem_map.1 hmem with ⟨p, hp, hpk⟩
        obtain ⟨p1, p2⟩ := p
        injection hpk with hi hj
        subst hi
        subst hj
        obtain ⟨hjlt, hget, hdec⟩ := ih (xs.drop 254) hrecfuel p1 p2 hp
        rw [List.length_drop] at hjlt
        refine ⟨by omega, ?_, ?_⟩
        · have h1 : p1 + 255 = (p1 + 254) + 1 := by omega
          rw [h1]
          simp only [List.get?_eq_getElem?, List.getElem?_cons_succ]
          rw [List.getElem?_append, if_neg (by rw [hlen]; omega), hlen]
          rw [show p1 + 254 - 254 = p1 from by omega]
          simp only [List.get?_eq_getElem?] at hget
          rw [hget, List.getElem?_drop]
          rw [show 254 + p2 = p2 + 254 from by omega]
        · intro v g hg
          have h1 : p1 + 255 = (p1 + 254) + 1 := by omega
          rw [h1, List.set_cons_succ, List.set_append, if_neg (by rw [hlen]; omega), hlen]
          rw [show p1 + 254 - 254 = p1 from by omega]
          obtain ⟨g, rfl⟩ : ∃ g', g = g' + 1 := ⟨g - 1, by omega⟩
          have hsetlen : ((cobsEncodeGo (xs.drop 254) f).set p1 v).length =
              (cobsEncodeGo (xs.drop 254) f).length := List.length_set _ _ _
          have hreclen : (cobsEncodeGo (xs.drop 254) f).length < g := by
            simp only [List.length_cons, List.length_append, hlen] at hg
            omega
          simp only [cobsDecodeGo]
          rw [if_neg (by simp only [List.length_append, hlen]; omega)]
          have ht := List.take_left (xs.take 254) ((cobsEncodeGo (xs.drop 254) f).set p1 v)
          have hd := List.drop_left (xs.take 254) ((cobsEncodeGo (xs.drop 254) f).set p1 v)
          rw [hlen] at ht hd
          have h254 : (255 : Nat) - 1 = 254 := rfl
          rw [h254, ht, hd]
          rw [hdec v g (by omega)]
          simp only [Option.map_some', ne_eq, not_true_eq_false, false_and, if_false,
            Option.some.injEq]
          rw [set_split xs 254 (p2 + 254) v h254xs, if_neg (by omega)]
          rw [show p2 + 254 - 254 = p2 from by omega]
    · -- a short block
      have hmin := List.length_take 254 (xs.takeWhile (fun b => b != 0))
      have htwle := length_takeWhile_le' (fun b => b != 0) xs
      have htwlt : (xs.takeWhile (fun b => b != 0)).length < 254 := by omega
      have hblock_eq : (xs.takeWhile (fun b => b != 0)).take 254 =
          xs.takeWhile (fun b => b != 0) :=
        List.take_of_length_le (by omega)
      have hdw : xs.drop (xs.takeWhile (fun b => b != 0)).length =
          xs.dropWhile (fun b => b != 0) := by
        have h := List.drop_left (xs.takeWhile (fun b => b != 0))
          (xs.dropWhile (fun b => b != 0))
        rw [List.takeWhile_append_dropWhile] at h
        exact h
      have hsplit := List.takeWhile_append_dropWhile (fun b => b != 0) xs
      rcases hrest : xs.dropWhile (fun b => b != 0) with _ | ⟨y, rest⟩
      · -- the whole input is one final block
        have hxs : xs.takeWhile (fun b => b != 0) = xs := by
          rw [hrest] at hsplit; simpa using hsplit
        have hE : cobsEncodeGo xs (f + 1) =
            ((xs.takeWhile (fun b => b != 0)).length + 1) ::
              xs.takeWhile (fun b => b != 0) := by
          simp only [cobsEncodeGo]
          rw [if_neg hB, hblock_eq, hdw, hrest]
        have hP : cobsDataPairsGo xs (f + 1) =
            (List.range (xs.takeWhile (fun b => b != 0)).length).map
              (fun k => (k + 1, k)) := by
          simp only [cobsDataPairsGo]
          rw [if_neg hB, hblock_eq, hdw, hrest]
        rw [hP] at hij
        rw [hE, hxs]
        rcases List.mem_map.1 hij with ⟨k, hk, hpk⟩
        injection hpk with hi hj
        subst hi
        subst hj
        have hklt : k < xs.length := by
          have := List.mem_range.1 hk
          rw [hxs] at this
          exact this
        refine ⟨hklt, ?_, ?_⟩
        · simp only [List.get?_eq_getElem?, List.getElem?_cons_succ]
        · intro v g hg
          rw [List.set_cons_succ]
          obtain ⟨g, rfl⟩ : ∃ g', g = g' + 1 := ⟨g - 1, by omega⟩
          obtain ⟨g, rfl⟩ : ∃ g', g = g' + 1 := by
            refine ⟨g - 1, ?_⟩
            simp only [List.length_cons] at hg
            omega
          simp only [cobsDecodeGo]
          rw [if_neg (by rw [List.length_set]; omega)]
          rw [Nat.add_sub_cancel]
          have hsetlen : (xs.set k v).length = xs.length := List.length_set _ _ _
          rw [← hsetlen, List.take_length, List.drop_length]
          simp [cobsDecodeGo]
      · -- the block ends at a zero byte
        have hy : y = 0 := by
          have := dropWhile_head_false hrest
          simpa using this
        subst hy
        have hxs : xs = xs.takeWhile (fun b => b != 0) ++ 0 :: rest := by
          rw [← hrest]; exact hsplit.symm
        have hxslen : xs.length =
            (xs.takeWhile (fun b => b != 0)).length + 1 + rest.length := by
          conv_lhs => rw [hxs]
          simp [List.length_append]
          omega
        have hrecfuel : rest.length < f := by omega
        have hE : cobsEncodeGo xs (f + 1) =
            ((xs.takeWhile (fun b => b != 0)).length + 1) ::
              (xs.takeWhile (fun b => b != 0) ++ cobsEncodeGo rest f) := by
          simp only [cobsEncodeGo]
          rw [if_neg hB, hblock_eq, hdw, hrest]
        have hP : cobsDataPairsGo xs (f + 1) =
            (List.range (xs.takeWhile (fun b => b != 0)).length).map
              (fun k => (k + 1, k)) ++
              (cobsDataPairsGo rest f).map
                (fun p => (p.1 + ((xs.takeWhile (fun b => b != 0)).length + 1),
                  p.2 + ((xs.takeWhile (fun b => b != 0)).length + 1))) := by
          simp only [cobsDataPairsGo]
          rw [if_neg hB, hblock_eq, hdw, hrest]
        rw [hP] at hij
        rw [hE]
        set tw := xs.takeWhile (fun b => b != 0) with htweq
        rcases List.mem_append.1 hij with hmem | hmem
        · rcases List.mem_map.1 hmem with ⟨k, hk, hpk⟩
          injection hpk with hi hj
          subst hi
          subst hj
          have hklt : k < tw.length := List.mem_range.1 hk
          refine ⟨by omega, ?_, ?_⟩
          · simp only [List.get?_eq_getElem?, List.getElem?_cons_succ]
            rw [List.getElem?_append, if_pos hklt]
            conv_rhs => rw [hxs]
            rw [List.getElem?_append, if_pos hklt]
          · intro v g hg
            rw [List.set_cons_succ, List.set_append, if_pos hklt]
            obtain ⟨g, rfl⟩ : ∃ g', g = g' + 1 := ⟨g - 1, by omega⟩
            have hsetlen : (tw.set k v).length =
                tw.length := List.length_set _ _ _
            have hreclen : (cobsEncodeGo rest f).length < g := by
              simp only [List.length_cons, List.length_append] at hg
              omega
            simp only [cobsDecodeGo]
            rw [if_neg (by simp only [List.length_append, hsetlen]; omega)]
            rw [Nat.add_sub_cancel]
            have ht := List.take_left (tw.set k v)
              (cobsEncodeGo rest f)
            have hd := List.drop_left (tw.set k v)
              (cobsEncodeGo rest f)
            rw [hsetlen] at ht hd
            rw [ht, hd]
            rw [cobsDecodeGo_encodeGo f rest hrecfuel g hreclen]
            have h1 : tw.length + 1 ≠ 255 := by omega
            have h2 : cobsEncodeGo rest f ≠ [] := cobsEncodeGo_ne_nil f rest hrecfuel
            simp only [Option.map_some', h1, h2, ne_eq, not_false_eq_true, and_self,
              if_true, Option.some.injEq]
            conv_rhs => rw [hxs]
            rw [List.set_append, if_pos hklt]
        · rcases List.mem_map.1 hmem with ⟨p, hp, hpk⟩
          obtain ⟨p1, p2⟩ := p
          injection hpk with hi hj
          subst hi
          subst hj
          obtain ⟨hjlt, hget, hdec⟩ := ih rest hrecfuel p1 p2 hp
          refine ⟨by omega, ?_, ?_⟩
          · have h1 : p1 + (tw.length + 1) =
                (p1 + tw.length) + 1 := by omega
            rw [h1]
            simp only [List.get?_eq_getElem?, List.getElem?_cons_succ]
            rw [List.getElem?_append, if_neg (by omega)]
            rw [show p1 + tw.length -
              tw.length = p1 from by omega]
            simp only [List.get?_eq_getElem?] at hget
            rw [hget]
            conv_rhs => rw [hxs]
            rw [List.getElem?_append, if_neg (by omega)]
            rw [show p2 + (tw.length + 1) -
              tw.length = p2 + 1 from by omega]
            simp only [List.getElem?_cons_succ]
          · intro v g hg
            have h1 : p1 + (tw.length + 1) =
                (p1 + tw.length) + 1 := by omega
            rw [h1, List.set_cons_succ, List.set_append, if_neg (by omega)]
            rw [show p1 + tw.length -
              tw.length = p1 from by omega]
            obtain ⟨g, rfl⟩ : ∃ g', g = g' + 1 := ⟨g - 1, by omega⟩
            have hsetlen : ((cobsEncodeGo rest f).set p1 v).length =
                (cobsEncodeGo rest f).length := List.length_set _ _ _
            have hreclen : (cobsEncodeGo rest f).length < g := by
              simp only [List.length_cons, List.length_append] at hg
              omega
            simp only [cobsDecodeGo]
            rw [if_neg (by simp only [List.length_append, hsetlen]; omega)]
            rw [Nat.add_sub_cancel]
            have ht := List.take_left tw
              ((cobsEncodeGo rest f).set p1 v)
            have hd := List.drop_left tw
              ((cobsEncodeGo rest f).set p1 v)
            rw [ht, hd]
            rw [hdec v g (by omega)]
            have h2 : tw.length + 1 ≠ 255 := by omega
            have h3 : (cobsEncodeGo rest f).set p1 v ≠ [] := by
              intro hcontra
              have := congrArg List.length hcontra
              rw [hsetlen] at this
              exact cobsEncodeGo_ne_nil f rest hrecfuel (List.eq_nil_of_length_eq_zero this)
            simp only [Option.map_some', h2, h3, ne_eq, not_false_eq_true, and_self,
              if_true, Option.some.injEq]
            conv_rhs => rw [hxs]
            rw [List.set_append, if_neg (by omega)]
            rw [show p2 + (tw.length + 1) -
              tw.length = p2 + 1 from by omega]
            rw [List.set_cons_succ]

/-- `cobsDataPairs` soundness at the level of `cobsEncode`/`cobsDecode`. -/
theorem cobsDataPairs_sound' (xs : List Nat) (i j : Nat)
    (hij : (i, j) ∈ cobsDataPairs xs) :
    j < xs.length ∧ (cobsEncode xs).get? i = xs.get? j ∧
      ∀ v, cobsDecode ((cobsEncode xs).set i v) = some (xs.set j v) := by
  obtain ⟨h1, h2, h3⟩ := cobsDataPairs_sound (xs.length + 1) xs (by omega) i j hij
  refine ⟨h1, h2, fun v => ?_⟩
  have h4 := h3 v ((cobsEncodeGo xs (xs.length + 1)).length + 1) (by omega)
  have hlen : ((cobsEncodeGo xs (xs.length + 1)).set i v).length =
      (cobsEncodeGo xs (xs.length + 1)).length := List.length_set _ _ _
  show cobsDecodeGo ((cobsEncode xs).set i v) (((cobsEncode xs).set i v).length + 1) =
    some (xs.set j v)
  show cobsDecodeGo ((cobsEncodeGo xs (xs.length + 1)).set i v)
    (((cobsEncodeGo xs (xs.length + 1)).set i v).length + 1) = some (xs.set j v)
  rw [hlen]
  exact h4

/-- If the reader's frame-processing step decodes to a naked frame with one
byte substituted, the checksum check rejects it. -/
theorem processFrame_decode_set (src dst : Address) (contents : List Nat)
    (hbytes : ∀ b ∈ contents, b < 256) (data : List Nat) (j v : Nat)
    (hdec : cobsDecode data = some ((nakedFrame src dst contents).set j v))
    (hj : j < (nakedFrame src dst contents).length) (hv : v < 256)
    (hne : (nakedFrame src dst contents).get? j ≠ some v) :
    processFrame data = .FrameErrorChecksum := by
  have hnlen := nakedFrame_length src dst contents
  have hmsgbytes : ∀ b ∈ MAGIC_WORD ++ Header.pack ⟨src, dst, contents.length, 0⟩ ++
      contents, b < 256 := by
    intro b hb
    simp only [List.mem_append] at hb
    rcases hb with (hb | hb) | hb
    · simp only [MAGIC_WORD, List.mem_cons, List.not_mem_nil, or_false] at hb
      rcases hb with h1 | h1 <;> omega
    · exact Header.pack_lt _ b hb
    · exact hbytes b hb
  have hcrc : crc16 (MAGIC_WORD ++ Header.pack ⟨src, dst, contents.length, 0⟩ ++
      contents) < 65536 := crc16_lt _ hmsgbytes
  have hmsglen : (MAGIC_WORD ++ Header.pack ⟨src, dst, contents.length, 0⟩ ++
      contents).length = contents.length + 6 := by
    simp [MAGIC_WORD, List.length_append, Header.pack_length]
    omega
  have hnaked : nakedFrame src dst contents =
      (MAGIC_WORD ++ Header.pack ⟨src, dst, contents.length, 0⟩ ++ contents) ++
        crcBeBytes (crc16 (MAGIC_WORD ++ Header.pack ⟨src, dst, contents.length, 0⟩ ++
          contents)) := rfl
  have hsetlen : ((nakedFrame src dst contents).set j v).length =
      (nakedFrame src dst contents).length := List.length_set _ _ _
  simp only [processFrame, hdec]
  rw [if_neg (by rw [hsetlen, MIN_NAKED_LEN_eq, hnlen]; omega)]
  have hsub2 : ((nakedFrame src dst contents).set j v).length - 2 =
      (MAGIC_WORD ++ Header.pack ⟨src, dst, contents.length, 0⟩ ++ contents).length := by
    rw [hsetlen, hnlen, hmsglen]
    omega
  have hsubC : ((nakedFrame src dst contents).set j v).length - CHECKSUM_LEN =
      (MAGIC_WORD ++ Header.pack ⟨src, dst, contents.length, 0⟩ ++ contents).length := by
    rw [hsetlen, hnlen, hmsglen]
    simp only [CHECKSUM_LEN]
    omega
  by_cases hcase : j < (MAGIC_WORD ++ Header.pack ⟨src, dst, contents.length, 0⟩ ++
      contents).length
  · -- substitution inside magic/header/payload: the recomputed CRC changes
    have hdecomp : (nakedFrame src dst contents).set j v =
        (MAGIC_WORD ++ Header.pack ⟨src, dst, contents.length, 0⟩ ++ contents).set j v ++
          crcBeBytes (crc16 (MAGIC_WORD ++ Header.pack ⟨src, dst, contents.length, 0⟩ ++
            contents)) := by
      conv_lhs => rw [hnaked]
      rw [List.set_append, if_pos hcase]
    have hmsg' : ((nakedFrame src dst contents).set j v).take
        (((nakedFrame src dst contents).set j v).length - CHECKSUM_LEN) =
        (MAGIC_WORD ++ Header.pack ⟨src, dst, contents.length, 0⟩ ++ contents).set j v := by
      rw [hsubC, hdecomp]
      have h := List.take_left ((MAGIC_WORD ++
        Header.pack ⟨src, dst, contents.length, 0⟩ ++ contents).set j v)
        (crcBeBytes (crc16 (MAGIC_WORD ++ Header.pack ⟨src, dst, contents.length, 0⟩ ++
          contents)))
      rwa [List.length_set] at h
    have hget2 : ((nakedFrame src dst contents).set j v).getD
        (((nakedFrame src dst contents).set j v).length - 2) 0 =
        crc16 (MAGIC_WORD ++ Header.pack ⟨src, dst, contents.length, 0⟩ ++ contents)
          / 256 % 256 := by
      rw [hsub2, hdecomp]
      rw [List.getD_append_right _ _ _ _ (by rw [List.length_set])]
      rw [List.length_set, Nat.sub_self]
      rfl
    have hget3 : ((nakedFrame src dst contents).set j v).getD
        (((nakedFrame src dst contents).set j v).length - 1) 0 =
        crc16 (MAGIC_WORD ++ Header.pack ⟨src, dst, contents.length, 0⟩ ++ contents)
          % 256 := by
      have hidx : ((nakedFrame src dst contents).set j v).length - 1 =
          (MAGIC_WORD ++ Header.pack ⟨src, dst, contents.length, 0⟩ ++
            contents).length + 1 := by
        rw [hsetlen, hnlen, hmsglen]
        omega
      rw [hidx, hdecomp]
      rw [List.getD_append_right _ _ _ _ (by rw [List.length_set]; omega)]
      rw [List.length_set, Nat.add_sub_cancel_left]
      rfl
    have hnej : (MAGIC_WORD ++ Header.pack ⟨src, dst, contents.length, 0⟩ ++
        contents).get? j ≠ some v := by
      intro hcontra
      apply hne
      rw [hnaked]
      rw [List.get?_eq_getElem?, List.getElem?_append, if_pos hcase]
      rw [List.get?_eq_getElem?] at hcontra
      exact hcontra
    have hcrcne := crc16_set_ne (MAGIC_WORD ++
      Header.pack ⟨src, dst, contents.length, 0⟩ ++ contents) j v hcase hmsgbytes hv hnej
    rw [if_pos (by
      rw [hmsg', hget2, hget3]
      rw [show crc16 (MAGIC_WORD ++ Header.pack ⟨src, dst, contents.length, 0⟩ ++
        contents) / 256 % 256 * 256 + crc16 (MAGIC_WORD ++
        Header.pack ⟨src, dst, contents.length, 0⟩ ++ contents) % 256 =
        crc16 (MAGIC_WORD ++ Header.pack ⟨src, dst, contents.length, 0⟩ ++ contents)
        from by omega]
      exact fun hcontra => hcrcne hcontra.symm)]
  · -- substitution inside the stored checksum bytes
    have hdecomp : (nakedFrame src dst contents).set j v =
        (MAGIC_WORD ++ Header.pack ⟨src, dst, contents.length, 0⟩ ++ contents) ++
          (crcBeBytes (crc16 (MAGIC_WORD ++ Header.pack ⟨src, dst, contents.length, 0⟩ ++
            contents))).set
            (j - (MAGIC_WORD ++ Header.pack ⟨src, dst, contents.length, 0⟩ ++
              contents).length) v := by
      conv_lhs => rw [hnaked]
      rw [List.set_append, if_neg hcase]
    have hmsg' : ((nakedFrame src dst contents).set j v).take
        (((nakedFrame src dst contents).set j v).length - CHECKSUM_LEN) =
        MAGIC_WORD ++ Header.pack ⟨src, dst, contents.length, 0⟩ ++ contents := by
      rw [hsubC, hdecomp]
      exact List.take_left _ _
    have hjk : j - (MAGIC_WORD ++ Header.pack ⟨src, dst, contents.length, 0⟩ ++
        contents).length = 0 ∨
        j - (MAGIC_WORD ++ Header.pack ⟨src, dst, contents.length, 0⟩ ++
          contents).length = 1 := by
      rw [hnlen] at hj
      rw [hmsglen]
      omega
    rcases hjk with hk | hk
    · -- the high checksum byte is replaced by v
      have hjeq : j = (MAGIC_WORD ++ Header.pack ⟨src, dst, contents.length, 0⟩ ++
          contents).length := by omega
      have hnev : crc16 (MAGIC_WORD ++ Header.pack ⟨src, dst, contents.length, 0⟩ ++
          contents) / 256 % 256 ≠ v := by
        intro hcontra
        apply hne
        rw [hnaked, List.get?_eq_getElem?, List.getElem?_append, if_neg (by omega), hjeq,
          Nat.sub_self]
        rw [← hcontra]
        rfl
      have hget2 : ((nakedFrame src dst contents).set j v).getD
          (((nakedFrame src dst contents).set j v).length - 2) 0 = v := by
        rw [hsub2, hdecomp]
        rw [List.getD_append_right _ _ _ _ (le_refl _), Nat.sub_self, hk]
        rfl
      have hget3 : ((nakedFrame src dst contents).set j v).getD
          (((nakedFrame src dst contents).set j v).length - 1) 0 =
          crc16 (MAGIC_WORD ++ Header.pack ⟨src, dst, contents.length, 0⟩ ++ contents)
            % 256 := by
        have hidx : ((nakedFrame src dst contents).set j v).length - 1 =
            (MAGIC_WORD ++ Header.pack ⟨src, dst, contents.length, 0⟩ ++
              contents).length + 1 := by
          rw [hsetlen, hnlen, hmsglen]
          omega
        rw [hidx, hdecomp]
        rw [List.getD_append_right _ _ _ _ (by omega), Nat.add_sub_cancel_left, hk]
        rfl
      rw [if_pos (by
        rw [hmsg', hget2, hget3]
        omega)]
    · -- the low checksum byte is replaced by v
      have hjeq : j = (MAGIC_WORD ++ Header.pack ⟨src, dst, contents.length, 0⟩ ++
          contents).length + 1 := by omega
      have hnev : crc16 (MAGIC_WORD ++ Header.pack ⟨src, dst, contents.length, 0⟩ ++
          contents) % 256 ≠ v := by
        intro hcontra
        apply hne
        rw [hnaked, List.get?_eq_getElem?, List.getElem?_append, if_neg (by omega), hjeq,
          Nat.add_sub_cancel_left]
        rw [← hcontra]
        rfl
      have hget2 : ((nakedFrame src dst contents).set j v).getD
          (((nakedFrame src dst contents).set j v).length - 2) 0 =
          crc16 (MAGIC_WORD ++ Header.pack ⟨src, dst, contents.length, 0⟩ ++ contents)
            / 256 % 256 := by
        rw [hsub2, hdecomp]
        rw [List.getD_append_right _ _ _ _ (le_refl _), Nat.sub_self, hk]
        rfl
      have hget3 : ((nakedFrame src dst contents).set j v).getD
          (((nakedFrame src dst contents).set j v).length - 1) 0 = v := by
        have hidx : ((nakedFrame src dst contents).set j v).length - 1 =
            (MAGIC_WORD ++ Header.pack ⟨src, dst, contents.length, 0⟩ ++
              contents).length + 1 := by
          rw [hsetlen, hnlen, hmsglen]
          omega
        rw [hidx, hdecomp]
        rw [List.getD_append_right _ _ _ _ (by omega), Nat.add_sub_cancel_left, hk]
        rfl
      rw [if_pos (by
        rw [hmsg', hget2, hget3]
        omega)]

deriving instance DecidableEq for Except

set_option maxRecDepth 100000 in
/-- C6 counterexample: a valid frame produced by `Writer::package` (src 13,
dst 169, a crafted 30-byte payload) for which XOR-ing the byte at index 28
(value 17, mask 17 ≠ 0, index below the terminating sentinel at 39) with a
non-zero value makes the reader emit `FrameOK` — the injected zero byte splits
the stream so that its tail is itself a complete valid frame (src 13, dst 169,
payload [42]), the engineered CRC collision passing every check. -/
theorem C6_counterexample :
    Writer.package ⟨13⟩ ⟨169⟩
      [141, 25, 17, 17, 17, 17, 17, 17, 17, 17, 17, 17, 17, 17, 17, 17, 17, 17,
        17, 17, 17, 17, 10, 107, 73, 3, 74, 144, 4, 42] =
      .ok [39, 107, 73, 3, 74, 144, 120, 141, 25, 17, 17, 17, 17, 17, 17, 17, 17,
        17, 17, 17, 17, 17, 17, 17, 17, 17, 17, 17, 17, 10, 107, 73, 3, 74, 144,
        4, 42, 206, 65, 0] ∧
    ([39, 107, 73, 3, 74, 144, 120, 141, 25, 17, 17, 17, 17, 17, 17, 17, 17, 17,
      17, 17, 17, 17, 17, 17, 17, 17, 17, 17, 17, 10, 107, 73, 3, 74, 144, 4, 42,
      206, 65, 0] : List Nat).get? 28 = some 17 ∧
    .FrameOK ⟨⟨13⟩, ⟨169⟩, 1, 0⟩ [42] ∈
      (feedMany Reader.new
        (([39, 107, 73, 3, 74, 144, 120, 141, 25, 17, 17, 17, 17, 17, 17, 17, 17,
          17, 17, 17, 17, 17, 17, 17, 17, 17, 17, 17, 17, 10, 107, 73, 3, 74, 144,
          4, 42, 206, 65, 0] : List Nat).set 28 (17 ^^^ 17))).2 := by
  decide

/-- C6 (amended): single-byte perturbations of a valid encoded frame that hit
a byte the COBS decoder copies verbatim (a data byte, not a block-code byte),
changing it to a different non-zero value, never produce `FrameOK`: the reader
answers `NotYet` for every byte up to the sentinel and rejects the frame with
`FrameErrorChecksum` on the final 0x00, since the CRC-16 detects every
single-byte substitution of the decoded contents.  (Perturbations of code
bytes, or ones that zero a byte, can forge a frame via a CRC collision — see
the counterexample.) -/
theorem C6_amended_data_byte_noise (src dst : Address) (contents : List Nat)
    (hlen : contents.length ≤ 1006) (hbytes : ∀ b ∈ contents, b < 256)
    (i j v : Nat)
    (hij : (i, j) ∈ cobsDataPairs (nakedFrame src dst contents))
    (hv : v < 256) (hv0 : v ≠ 0)
    (hne : (cobsEncode (nakedFrame src dst contents)).get? i ≠ some v) :
    feedMany Reader.new ((cobsEncode (nakedFrame src dst contents)).set i v ++ [0]) =
      (⟨[]⟩, List.replicate (cobsEncode (nakedFrame src dst contents)).length .NotYet ++
        [.FrameErrorChecksum]) := by
  obtain ⟨hjlt, hget, hdec⟩ := cobsDataPairs_sound' (nakedFrame src dst contents) i j hij
  have hnlen := nakedFrame_length src dst contents
  have hElen : (cobsEncode (nakedFrame src dst contents)).length ≤ 1018 := by
    have h := cobsEncode_length_le (nakedFrame src dst contents)
    rw [hnlen] at h
    omega
  have hsetlen : ((cobsEncode (nakedFrame src dst contents)).set i v).length =
      (cobsEncode (nakedFrame src dst contents)).length := List.length_set _ _ _
  have hnz : ∀ b ∈ (cobsEncode (nakedFrame src dst contents)).set i v, b ≠ 0 := by
    intro b hb
    rcases List.mem_or_eq_of_mem_set hb with hb | hb
    · exact cobsEncode_ne_zero _ b hb
    · rw [hb]; exact hv0
  have hnej : (nakedFrame src dst contents).get? j ≠ some v := by
    rw [← hget]; exact hne
  have hproc : processFrame ((cobsEncode (nakedFrame src dst contents)).set i v) =
      .FrameErrorChecksum :=
    processFrame_decode_set src dst contents hbytes _ j v (hdec v) hjlt hv hnej
  have hE : feedMany Reader.new ((cobsEncode (nakedFrame src dst contents)).set i v) =
      (⟨(cobsEncode (nakedFrame src dst contents)).set i v⟩,
        List.replicate (cobsEncode (nakedFrame src dst contents)).length .NotYet) := by
    have h := feedMany_nonzero ((cobsEncode (nakedFrame src dst contents)).set i v)
      Reader.new hnz
      (by rw [hsetlen]
          show 0 + (cobsEncode (nakedFrame src dst contents)).length ≤ MAX_FRAME_LEN
          rw [MAX_FRAME_LEN_eq]
          omega)
    rw [h, hsetlen]
    rfl
  have hfeed : (⟨(cobsEncode (nakedFrame src dst contents)).set i v⟩ : Reader).feed 0 =
      (⟨[]⟩, .FrameErrorChecksum) := by
    unfold Reader.feed
    rw [if_neg (by
      show ¬(MAX_FRAME_LEN ≤ ((cobsEncode (nakedFrame src dst contents)).set i v).length)
      rw [hsetlen, MAX_FRAME_LEN_eq]
      omega)]
    rw [if_pos (show (0 : Nat) = COBS_MARKER from rfl)]
    rw [hproc]
  have hsingle : feedMany
      (⟨(cobsEncode (nakedFrame src dst contents)).set i v⟩ : Reader) [0] =
      (⟨[]⟩, [.FrameErrorChecksum]) := by
    simp only [feedMany, hfeed]
  rw [feedMany_append, hE, hsingle]

set_option maxRecDepth 100000 in
/-- Witness for C6 (amended): perturbing the first data byte (the magic 'k',
encoded index 1, source index 0) of the frame for payload [5, 9, 7] to 1. -/
theorem C6_amended_data_byte_noise_witness :
    feedMany Reader.new ((cobsEncode (nakedFrame ⟨13⟩ ⟨169⟩ [5, 9, 7])).set 1 1 ++ [0]) =
      (⟨[]⟩, List.replicate (cobsEncode (nakedFrame ⟨13⟩ ⟨169⟩ [5, 9, 7])).length
        .NotYet ++ [.FrameErrorChecksum]) :=
  C6_amended_data_byte_noise ⟨13⟩ ⟨169⟩ [5, 9, 7] (by decide) (by decide) 1 0 1
    (by decide) (by decide) (by decide) (by decide)

end Kiri
